import Mathlib

/-!
Verification of the `listagent` library (`listagent.py`) against its
natural-language specification.

The development shallowly embeds the Python source:

* Python lists become Lean `List α`; `x[i]` / `x[i] = v` / `del x[i]` with
  Python's negative-index wraparound and `IndexError` become `pyGetItem` /
  `pySetItem` / `pyDelItem`, returning `Except PyErr`.
* `slice.indices` becomes `sliceIndices` (the CPython clamping algorithm).
* `sliceagent.align` becomes `align`; Python's `int(a / float(b))` is exact
  truncating division, modelled by `Int.tdiv` (float rounding is irrelevant at
  the magnitudes considered).
* Imperative in-place algorithms (Shell sort, reverse, the heapq routines)
  read and write a mutable sequence through index arithmetic.  They are
  defined over a small explicit dictionary `Store` of get/set/len operations,
  matching the duck-typed Python functions which accept any mutable indexable
  sequence; the two instances used are a plain list and a list viewed through
  a translation table.
-/

/-- Python exception kinds raised by the code under verification. -/
inductive PyErr where
  | indexError
  | valueError
  | typeError
  | notImplementedError
deriving DecidableEq, Repr

instance [DecidableEq ε] [DecidableEq α] : DecidableEq (Except ε α)
  | .ok a, .ok b =>
    if h : a = b then isTrue (by rw [h])
    else isFalse (fun hc => h (Except.ok.inj hc))
  | .error a, .error b =>
    if h : a = b then isTrue (by rw [h])
    else isFalse (fun hc => h (Except.error.inj hc))
  | .ok _, .error _ => isFalse Except.noConfusion
  | .error _, .ok _ => isFalse Except.noConfusion

/-- Resolution of a Python sequence index against a length: negative indices
wrap by the length, and anything still out of `[0, L)` is an error (`none`). -/
def pyResolve (L : Nat) (i : Int) : Option Nat :=
  let j : Int := if i < 0 then i + L else i
  if 0 ≤ j ∧ j < L then some j.toNat else none

/-- Python `x[i]` on a list: negative wraparound, `IndexError` out of range. -/
def pyGetItem (x : List α) (i : Int) : Except PyErr α :=
  match (pyResolve x.length i).bind (fun j => x[j]?) with
  | some v => .ok v
  | none => .error .indexError

/-- Python `x[i] = v` on a list. -/
def pySetItem (x : List α) (i : Int) (v : α) : Except PyErr (List α) :=
  match pyResolve x.length i with
  | some j => .ok (x.set j v)
  | none => .error .indexError

/-- Python `del x[i]` on a list. -/
def pyDelItem (x : List α) (i : Int) : Except PyErr (List α) :=
  match pyResolve x.length i with
  | some j => .ok (x.eraseIdx j)
  | none => .error .indexError

/-- A Python slice object: each of start/stop/step may be `None`.
The code under verification never builds a slice with step `0`
(`slice.indices` would raise `ValueError`); theorems carry `step? ≠ some 0`
hypotheses where it matters. -/
structure PySlice where
  start? : Option Int
  stop? : Option Int
  step? : Option Int
deriving DecidableEq, Repr

/-- The full-range default slice `slice(None)`, i.e. `[:]`. -/
def sliceNone : PySlice := ⟨none, none, none⟩

/-- CPython's `slice.indices(L)` clamping algorithm
(`_PySlice_GetLongIndices`): returns the normalized `(start, stop, step)`. -/
def sliceIndices (sl : PySlice) (L : Nat) : Int × Int × Int :=
  let step : Int := sl.step?.getD 1
  let lower : Int := if step < 0 then -1 else 0
  let upper : Int := if step < 0 then (L : Int) - 1 else (L : Int)
  let start : Int :=
    match sl.start? with
    | none => if step < 0 then upper else lower
    | some s => if s < 0 then max (s + L) lower else min s upper
  let stop : Int :=
    match sl.stop? with
    | none => if step < 0 then lower else upper
    | some s => if s < 0 then max (s + L) lower else min s upper
  (start, stop, step)

/-- The data recomputed by `sliceagent.align`: the normalized triple and the
logical length `n`.  The source stores `translate` as a closure over
`(start, step)`; here it is the function `Aligned.translate`. -/
structure Aligned where
  start : Int
  stop : Int
  step : Int
  n : Int
deriving DecidableEq, Repr

/-- `sliceagent.align`: normalize the slice against the current origin length
and compute `n`.  The source computes `n = int((stop-start-1)/float(step))+1`
for positive step and `n = int((stop-start)/float(step))` otherwise;
`int(a/float(b))` is truncating division `Int.tdiv`. -/
def align (sl : PySlice) (L : Nat) : Aligned :=
  let t := sliceIndices sl L
  let start := t.1
  let stop := t.2.1
  let step := t.2.2
  let n : Int :=
    if 0 < step then (stop - start - 1).tdiv step + 1 else (stop - start).tdiv step
  ⟨start, stop, step, n⟩

/-- The index translator `i ↦ start + i*step` bound by `align`. -/
def Aligned.translate (v : Aligned) (i : Int) : Int := v.start + i * v.step

/-- Modelled from the spec (§3 length formula, reference semantics): the
number of elements of a normalized strided range, with the conditional
`0` for every empty range. -/
def refLength (start stop step : Int) : Int :=
  if 0 < step then (if start < stop then (stop - start - 1).fdiv step + 1 else 0)
  else (if stop < start then (stop - start).fdiv step else 0)

/-- Membership of a claimed slice specification in the well-formed set:
the step is not zero (Python would raise `ValueError` at normalization). -/
def PySlice.Valid (sl : PySlice) : Prop := sl.step? ≠ some 0

instance (sl : PySlice) : Decidable sl.Valid := by
  unfold PySlice.Valid; infer_instance

/-- A properly measured aligned view: the computed `n` is nonnegative and
every translated index of the logical range lands inside the origin.  This is
what the spec's notion of an aligned view of logical length `n` presupposes;
`align` guarantees it whenever the normalized range is nonempty or `n = 0`
(the C1 defect produces the remaining degenerate cases). -/
def Aligned.Consistent (v : Aligned) (L : Nat) : Prop :=
  0 ≤ v.n ∧ v.step ≠ 0 ∧
    ∀ k : Nat, k < v.n.toNat → 0 ≤ v.translate k ∧ v.translate k < L

instance (v : Aligned) (L : Nat) : Decidable (v.Consistent L) := by
  unfold Aligned.Consistent; infer_instance

/-- The recursive agent structure: a `sliceagent` holds either a plain list or
another agent as its origin, plus a slice specification. -/
inductive RawAgent (α : Type u) where
  | of (xs : List α) (sl : PySlice) : RawAgent α
  | over (a : RawAgent α) (sl : PySlice) : RawAgent α
deriving DecidableEq, Repr

/-- The slice specification stored on an agent. -/
def RawAgent.slice : RawAgent α → PySlice
  | .of _ sl => sl
  | .over _ sl => sl

/-- The slice branch of `sliceagent.__getitem__`: `a[:]` returns the agent
itself; re-slicing a full-range agent replaces the specification; re-slicing
any other agent wraps it in a new agent. -/
def getitem_slice : RawAgent α → PySlice → RawAgent α
  | a, key =>
    if key = sliceNone then a
    else if a.slice = sliceNone then
      match a with
      | .of xs _ => .of xs key
      | .over b _ => .over b key
    else .over a key

/-- A mutable indexable sequence, as the duck-typed Python functions see it:
get/set by index and a length.  The in-place algorithms of the source
(`sort`, `reverse`, the heapq routines) are defined over this dictionary;
instantiating it with `listStore` runs them on a plain list, instantiating it
with `vStore` runs them on an origin list addressed through a translation
table, exactly as the agent methods do. -/
structure Store (σ : Type u) (α : Type v) where
  get : σ → Nat → α
  set : σ → Nat → α → σ
  len : σ → Nat

/-- The contents of a store, read out in index order. -/
def Store.values (S : Store σ α) (s : σ) : List α :=
  (List.range (S.len s)).map (S.get s)

/-- The laws a store must satisfy for the algorithms to behave like array
programs; both instances below satisfy them (the view instance under
`TransOK`). -/
structure Store.Lawful (S : Store σ α) : Prop where
  len_set : ∀ s i v, S.len (S.set s i v) = S.len s
  get_set_self : ∀ s i v, i < S.len s → S.get (S.set s i v) i = v
  get_set_ne : ∀ s i v j, i < S.len s → j < S.len s → j ≠ i →
    S.get (S.set s i v) j = S.get s j

/-- A plain Python list as a store. -/
def listStore (α : Type u) [Inhabited α] : Store (List α) α where
  get s i := s.getD i default
  set s i v := s.set i v
  len s := s.length

/-- An origin list of length `L` addressed through a table `tl` of physical
indices (`tl` is the materialized `map(translate, range(n))`); reads and
writes resolve `tl[k]` with Python's index semantics.  Out-of-range accesses,
which Python would turn into `IndexError`, are modelled as defaults/no-ops;
the theorems below only ever use this store under `TransOK`, which puts every
access in range.  The state carries its (invariant) length so that the store
laws hold. -/
def vStore (α : Type u) [Inhabited α] (tl : List Int) (L : Nat) :
    Store {xs : List α // xs.length = L} α where
  get s k :=
    match pyResolve L (tl.getD k 0) with
    | some j => s.1.getD j default
    | none => default
  set s k v :=
    match pyResolve L (tl.getD k 0) with
    | some j => ⟨s.1.set j v, by rw [List.length_set]; exact s.2⟩
    | none => s
  len _ := tl.length

/-- Reachability by in-range writes: `Reach S s t` holds when `t` arises from
`s` by a sequence of `S.set` operations at logical indices below the length.
Every algorithm below transforms its state this way, which bounds the
physical footprint of the view-instantiated algorithms. -/
inductive Reach (S : Store σ α) : σ → σ → Prop where
  | refl (s : σ) : Reach S s s
  | step {s t : σ} (k : Nat) (v : α) (h : Reach S s t) (hk : k < S.len t) :
      Reach S s (S.set t k v)

/-- A translation table is usable against origin length `L`: every entry is a
physical index in `[0, L)` and entries are pairwise distinct. -/
def TransOK (tl : List Int) (L : Nat) : Prop :=
  (∀ k : Nat, k < tl.length → 0 ≤ tl.getD k 0 ∧ tl.getD k 0 < L) ∧
  (∀ k : Nat, k < tl.length → ∀ k' : Nat, k' < tl.length →
    tl.getD k 0 = tl.getD k' 0 → k = k')

instance (tl : List Int) (L : Nat) : Decidable (TransOK tl L) := by
  unfold TransOK; infer_instance

/-- The materialized translation table `t = map(self.translate, range(n))`
of `sliceagent.sort` (also used to run `reverse` through the translator). -/
def tList (v : Aligned) : List Int :=
  (List.range v.n.toNat).map (fun k : Nat => v.translate (k : Int))

/-- Inner while-loop of the gapped insertion step of `sliceagent.sort`:
shift elements one gap down while they exceed `tmp`, then drop `tmp` into
the vacated slot.  The `0 < gap` conjunct is redundant at every call site
(the gap loop only runs for nonzero gaps) and keeps the recursion
well-founded. -/
def sortInner (S : Store σ α) [LinearOrder α] (gap : Nat) (tmp : α) :
    Nat → σ → σ
  | k, s =>
    if _h : 0 < gap ∧ gap ≤ k ∧ tmp < S.get s (k - gap) then
      sortInner S gap tmp (k - gap) (S.set s k (S.get s (k - gap)))
    else S.set s k tmp
termination_by k => k
decreasing_by omega

/-- The `for k in range(n)` pass of `sliceagent.sort` at a fixed gap; `tmp`
is read at `t[k]` before the inner loop runs.  (The source also evaluates
`t[k-gap]` before testing `k >= gap`; for `k < gap` that value is a benign
Python negative-index read of the table and is never used.) -/
def sortPassAux (S : Store σ α) [LinearOrder α] (gap : Nat) :
    List Nat → σ → σ
  | [], s => s
  | k :: ks, s => sortPassAux S gap ks (sortInner S gap (S.get s k) k s)

/-- The gap update of `sliceagent.sort`:
`gap = 1 if gap == 2 else int(gap * 5.0 / 11)`. -/
def nextGap (gap : Nat) : Nat := if gap = 2 then 1 else gap * 5 / 11

theorem nextGap_lt (gap : Nat) (h : 0 < gap) : nextGap gap < gap := by
  unfold nextGap
  split
  · omega
  · have : gap * 5 / 11 < gap := Nat.div_lt_of_lt_mul (by omega)
    omega

/-- The `while gap:` loop of `sliceagent.sort`. -/
def sortGaps (S : Store σ α) [LinearOrder α] (n : Nat) : Nat → σ → σ
  | gap, s =>
    if _h : 0 < gap then
      sortGaps S n (nextGap gap) (sortPassAux S gap (List.range n) s)
    else s
termination_by gap => gap
decreasing_by exact nextGap_lt _ _h

/-- `sliceagent.sort`: Shell sort over the store, gaps starting at `n // 2`. -/
def sortStore (S : Store σ α) [LinearOrder α] (s : σ) : σ :=
  sortGaps S (S.len s) (S.len s / 2) s

/-- `sliceagent.sort` on a view over a list origin: the store resolves every
logical slot through the materialized translation table. -/
def sliceagentSort [Inhabited α] [LinearOrder α] (v : Aligned) (x : List α) :
    List α :=
  (sortStore (vStore α (tList v) x.length) ⟨x, rfl⟩).1

/-- The two-pointer loop of `sliceagent.reverse` (indices are `Int` because
the upper pointer starts at `len(self) - 1`, which is `-1` on an empty
view). -/
def reverseLoop (S : Store σ α) : Int → Int → σ → σ
  | i, j, s =>
    if _h : i ≤ j then
      reverseLoop S (i + 1) (j - 1)
        (S.set (S.set s i.toNat (S.get s j.toNat)) j.toNat (S.get s i.toNat))
    else s
termination_by i j => (j + 1 - i).toNat
decreasing_by omega

/-- `sliceagent.reverse` over a store. -/
def reverseStore (S : Store σ α) (s : σ) : σ :=
  reverseLoop S 0 ((S.len s : Int) - 1) s

/-- `sliceagent.reverse` on a view over a list origin. -/
def sliceagentReverse [Inhabited α] (v : Aligned) (x : List α) : List α :=
  (reverseStore (vStore α (tList v) x.length) ⟨x, rfl⟩).1

/-- The while-loop of heapq's `_siftdown`: walk toward `startpos`, moving
parents down while they exceed `newitem`; returns the state and the final
position (where the caller stores `newitem`). -/
def siftdownLoop (S : Store σ α) [LinearOrder α] (newitem : α)
    (startpos : Nat) : Nat → σ → σ × Nat
  | pos, s =>
    if h : startpos < pos then
      if newitem < S.get s ((pos - 1) / 2) then
        siftdownLoop S newitem startpos ((pos - 1) / 2)
          (S.set s pos (S.get s ((pos - 1) / 2)))
      else (s, pos)
    else (s, pos)
termination_by pos => pos
decreasing_by omega

/-- heapq's `_siftdown` (leading underscore dropped). -/
def siftdown (S : Store σ α) [LinearOrder α] (s : σ) (startpos pos : Nat) :
    σ :=
  let newitem := S.get s pos
  let r := siftdownLoop S newitem startpos pos s
  S.set r.1 r.2 newitem

/-- The descend-to-a-leaf loop of heapq's `_siftup`: repeatedly move the
smaller child up into `pos` and descend into that child's slot. -/
def siftupLoop (S : Store σ α) [LinearOrder α] (endpos : Nat) :
    Nat → σ → σ × Nat
  | pos, s =>
    if _h : 2 * pos + 1 < endpos then
      if _h2 : 2 * pos + 2 < endpos ∧
          ¬ S.get s (2 * pos + 1) < S.get s (2 * pos + 2) then
        siftupLoop S endpos (2 * pos + 2) (S.set s pos (S.get s (2 * pos + 2)))
      else
        siftupLoop S endpos (2 * pos + 1) (S.set s pos (S.get s (2 * pos + 1)))
    else (s, pos)
termination_by pos => endpos - pos
decreasing_by all_goals omega

/-- heapq's `_siftup` (leading underscore dropped): bubble the smaller child
up to the vacated slot down to a leaf, place `newitem` there, then restore
with `_siftdown`. -/
def siftup (S : Store σ α) [LinearOrder α] (s : σ) (pos : Nat) : σ :=
  let newitem := S.get s pos
  let r := siftupLoop S (S.len s) pos s
  siftdown S (S.set r.1 r.2 newitem) pos r.2

/-- heapq's `heapify`: `for i in reversed(range(n // 2)): _siftup(x, i)`. -/
def heapifyStore (S : Store σ α) [LinearOrder α] (s : σ) : σ :=
  (List.range (S.len s / 2)).reverse.foldl (fun t i => siftup S t i) s

/-- heapq's `heappushpop`: exchange `item` with the root when the root is
smaller, then restore the heap; returns the popped value and the state. -/
def heappushpop (S : Store σ α) [LinearOrder α] (s : σ) (item : α) :
    α × σ :=
  if 0 < S.len s ∧ S.get s 0 < item then
    (S.get s 0, siftup S (S.set s 0 item) 0)
  else (item, s)

/-- The binary min-heap invariant of claim C10 on a plain list: every parent
is less than or equal to each of its in-range children. -/
def heapInv [LinearOrder α] [Inhabited α] (x : List α) : Prop :=
  ∀ i : Nat, i < x.length →
    (2 * i + 1 < x.length → x.getD i default ≤ x.getD (2 * i + 1) default) ∧
    (2 * i + 2 < x.length → x.getD i default ≤ x.getD (2 * i + 2) default)

instance [LinearOrder α] [Inhabited α] (x : List α) :
    Decidable (heapInv x) := by
  unfold heapInv; infer_instance

/-- The scan-for-pivot loop of `next_permutation`:
`while i >= 0 and a[i+1] <= a[i]: i -= 1`. -/
def npScanI [Inhabited α] [LinearOrder α] (a : List α) (i : Int) : Int :=
  if h : 0 ≤ i ∧ a.getD (i.toNat + 1) default ≤ a.getD i.toNat default then
    npScanI a (i - 1)
  else i
termination_by (i + 1).toNat
decreasing_by omega

/-- The scan-for-swap-partner loop of `next_permutation`:
`while a[j] <= a[i]: j -= 1`.  The source has no `j >= 0` guard; when the
pivot exists the loop provably stops at `j > i ≥ 0`, so the `j = 0` fallback
below is unreachable in every use. -/
def npScanJ [Inhabited α] [LinearOrder α] (a : List α) (ai : α) :
    Nat → Nat
  | 0 => 0
  | j + 1 => if a.getD (j + 1) default ≤ ai then npScanJ a ai j else j + 1

/-- `next_permutation`: find the rightmost ascent, swap with the rightmost
larger element of the suffix, and reverse the suffix through a fresh agent
(`sliceagent(a)[i+1:].reverse()`); returns Python's boolean result together
with the final list. -/
def next_permutation [Inhabited α] [LinearOrder α] (a : List α) :
    Bool × List α :=
  let i := npScanI a ((a.length : Int) - 2)
  if i < 0 then (false, a)
  else
    let iN := i.toNat
    let ai := a.getD iN default
    let j := npScanJ a ai (a.length - 1)
    let a' := (a.set iN (a.getD j default)).set j ai
    let a'' :=
      sliceagentReverse (align ⟨some ((iN : Int) + 1), none, none⟩ a'.length) a'
    (true, a'')

/-- The `for i in range(len(x))` loop of `partial_sort`: exchange each front
element exceeding the back heap's root with that root.  The read `y[0]` goes
through the back view's bounds-checked `__getitem__` and raises `IndexError`
on an empty back view. -/
def partial_sortLoop (Sx Sy : Store σ α) [LinearOrder α] :
    List Nat → σ → Except PyErr σ
  | [], s => .ok s
  | i :: is, s =>
    if 0 < Sy.len s then
      if Sy.get s 0 < Sx.get s i then
        partial_sortLoop Sx Sy is
          (Sx.set (heappushpop Sy s (Sx.get s i)).2 i
            (heappushpop Sy s (Sx.get s i)).1)
      else partial_sortLoop Sx Sy is s
    else .error .indexError

/-- `partial_sort(x, y)`: heapify the back store, run the exchange loop over
the front store, then `x.sort()`. -/
def partial_sort (Sx Sy : Store σ α) [LinearOrder α] (s : σ) :
    Except PyErr σ :=
  match partial_sortLoop Sx Sy (List.range (Sx.len s)) (heapifyStore Sy s) with
  | .ok s' => .ok (sortStore Sx s')
  | .error e => .error e

/-- `partial_sort` on two views over one origin list, as in the source's
doctest (`partial_sort(a[:10:2], a[10::2])`). -/
def listagentPartialSort [Inhabited α] [LinearOrder α] (vx vy : Aligned)
    (x : List α) : Except PyErr (List α) :=
  (partial_sort (vStore α (tList vx) x.length) (vStore α (tList vy) x.length)
    ⟨x, rfl⟩).map (fun s => s.1)

/-- `c` is an array-heap child slot of `j`. -/
def IsChild (c j : Nat) : Prop := c = 2 * j + 1 ∨ c = 2 * j + 2

/-- The descendant relation of the implicit binary tree laid out in an array:
positions reachable from `p` by repeatedly moving to a child slot. -/
inductive Desc : Nat → Nat → Prop where
  | refl (p : Nat) : Desc p p
  | left {p q : Nat} : Desc p q → Desc p (2 * q + 1)
  | right {p q : Nat} : Desc p q → Desc p (2 * q + 2)

/-- The local min-heap condition at node `j` for the first `n` slots of a
store: `j` is at most each of its in-range children. -/
def lOKS (S : Store σ α) [LinearOrder α] (n : Nat) (s : σ) (j : Nat) : Prop :=
  (2 * j + 1 < n → S.get s j ≤ S.get s (2 * j + 1)) ∧
  (2 * j + 2 < n → S.get s j ≤ S.get s (2 * j + 2))

/-- The elements a view exposes, read from the underlying list in logical
order (the list `[x[translate(0)], …, x[translate(n-1)]]`). -/
def gatherList [Inhabited α] (v : Aligned) (x : List α) : List α :=
  (List.range v.n.toNat).map
    (fun k : Nat => x.getD (v.translate (k : Int)).toNat default)

-- Sanity checks of the embedding against the source's doctests.
example : align sliceNone 6 = ⟨0, 6, 1, 6⟩ := by decide
example : align ⟨some 1, some (-1), some 2⟩ 8 = ⟨1, 7, 2, 3⟩ := by decide
example : (align ⟨some 1, some (-1), some 2⟩ 8).translate 2 = 5 := by decide
example : align ⟨none, none, some (-1)⟩ 6 = ⟨5, -1, -1, 6⟩ := by decide
example : align ⟨some 1, none, some 2⟩ 11 = ⟨1, 11, 2, 5⟩ := by decide

/-- The int branch of `sliceagent.__getitem__`: bounds check against the
logical length `n`, negative wraparound by `key % n`, then an origin read at
the translated index.  Reading `len(self)` first raises `ValueError` when the
stored `n` is negative (Python's `len` rejects a negative `__len__`). -/
def getitem_int (v : Aligned) (x : List α) (key : Int) : Except PyErr α :=
  if v.n < 0 then .error .valueError
  else if v.n ≤ key then .error .indexError
  else if key < 0 then
    if key < -v.n then .error .indexError
    else pyGetItem x (v.translate (key % v.n))
  else pyGetItem x (v.translate key)

/-- The int branch of `sliceagent.__setitem__`: a direct origin write at the
translated index, with no bounds check of its own. -/
def setitem_int (v : Aligned) (x : List α) (key : Int) (val : α) :
    Except PyErr (List α) :=
  pySetItem x (v.translate key) val

/-- The int branch of `sliceagent.__delitem__`: a direct origin deletion at
the translated index (no bounds check of its own), followed by `align`. -/
def delitem_int (sl : PySlice) (v : Aligned) (x : List α) (key : Int) :
    Except PyErr (List α × Aligned) :=
  match pyDelItem x (v.translate key) with
  | .ok x' => .ok (x', align sl x'.length)
  | .error e => .error e

/-- The slice branch of `sliceagent.__setitem__`, inner loop: for each
logical index in `ks`, draw the next supplied value (`StopIteration` on an
exhausted iterator is re-raised as `ValueError("length mismatch")`) and write
it through the translator.  The origin state reached at the moment of an
exception is returned alongside the error, mirroring Python's in-place
mutation with no rollback. -/
def setitem_sliceAux (v : Aligned) :
    List Nat → List α → List α → List α × Option PyErr
  | [], _, x => (x, none)
  | _ :: _, [], x => (x, some .valueError)
  | i :: is, val :: vals, x =>
    match pySetItem x (v.translate i) val with
    | .ok x' => setitem_sliceAux v is vals x'
    | .error e => (x, some e)

/-- The slice branch of `sliceagent.__setitem__`: iterates over
`range(len(self))` — the whole view, whatever the slice key was — zipping the
supplied values in.  Reading `len(self)` raises `ValueError` if `n < 0`. -/
def setitem_slice (v : Aligned) (x : List α) (vals : List α) :
    List α × Option PyErr :=
  if v.n < 0 then (x, some .valueError)
  else setitem_sliceAux v (List.range v.n.toNat) vals x

theorem pyResolve_eq_some (L : Nat) (i : Int) (h0 : 0 ≤ i) (hL : i < L) :
    pyResolve L i = some i.toNat := by
  unfold pyResolve
  have hi : ¬ i < 0 := by omega
  simp only [hi, if_false]
  simp [h0, hL]

theorem pyResolve_eq_none_iff (L : Nat) (i : Int) :
    pyResolve L i = none ↔ (i < -(L : Int) ∨ (L : Int) ≤ i) := by
  unfold pyResolve
  by_cases hi : i < 0 <;> simp only [hi, if_true, if_false] <;> split <;>
    constructor <;> intro h <;> first | omega | simp_all

theorem pyGetItem_ok (x : List α) (i : Int) (h0 : 0 ≤ i) (hL : i < x.length)
    (d : α) : pyGetItem x i = .ok (x.getD i.toNat d) := by
  unfold pyGetItem
  rw [pyResolve_eq_some _ _ h0 hL]
  have hlt : i.toNat < x.length := by omega
  simp [List.getElem?_eq_getElem hlt, List.getD_eq_getElem _ _ hlt]

theorem pySetItem_ok (x : List α) (i : Int) (v : α) (h0 : 0 ≤ i)
    (hL : i < x.length) : pySetItem x i v = .ok (x.set i.toNat v) := by
  unfold pySetItem
  rw [pyResolve_eq_some _ _ h0 hL]

theorem getD_set_self (x : List α) (j : Nat) (v : α) (d : α)
    (h : j < x.length) : (x.set j v).getD j d = v := by
  rw [List.getD_eq_getElem?_getD, List.getElem?_set]
  simp [h]

theorem getD_set_ne (x : List α) (j p : Nat) (v : α) (d : α) (h : j ≠ p) :
    (x.set j v).getD p d = x.getD p d := by
  rw [List.getD_eq_getElem?_getD, List.getElem?_set, if_neg h,
    ← List.getD_eq_getElem?_getD]

theorem Aligned.translate_inj (v : Aligned) (hstep : v.step ≠ 0)
    {i j : Int} (h : v.translate i = v.translate j) : i = j := by
  unfold Aligned.translate at h
  have : i * v.step = j * v.step := by omega
  exact mul_right_cancel₀ hstep this

/-- C1: the claim's reference length (normalized, conditional) at the
degenerate empty range `[0:0:2]` of a length-2 list is `0`, but `align`
computes `n = 1`; at `[5:2:1]` of a length-10 list the reference length is
`0` but `align` computes `n = -3` (so Python's `len()` would raise).  This
evaluates the code at the failing inputs of claim C1. -/
theorem C1_length_formula_code_bug :
    (align ⟨some 0, some 0, some 2⟩ 2).n = 1 ∧
      refLength 0 0 2 = 0 ∧
      (align ⟨some 5, some 2, some 1⟩ 10).n = -3 ∧
      refLength 5 2 1 = 0 ∧
      sliceIndices ⟨some 0, some 0, some 2⟩ 2 = (0, 0, 2) ∧
      sliceIndices ⟨some 5, some 2, some 1⟩ 10 = (5, 2, 1) := by
  decide

/-- C8 counterexample: slicing any agent with the full-range key `[:]`
returns the agent itself, not a new view; in particular for a non-default
agent the result does not wrap the agent as its origin as the claim states. -/
theorem C8_full_slice_key_returns_self :
    getitem_slice (RawAgent.over (.of ([0] : List Int) sliceNone) ⟨some 1, none, none⟩)
        sliceNone
      = RawAgent.over (.of ([0] : List Int) sliceNone) ⟨some 1, none, none⟩ ∧
    getitem_slice (RawAgent.over (.of ([0] : List Int) sliceNone) ⟨some 1, none, none⟩)
        sliceNone
      ≠ RawAgent.over
          (RawAgent.over (.of ([0] : List Int) sliceNone) ⟨some 1, none, none⟩)
          sliceNone := by
  decide

/-- C8 (amended): for every view `v` and slice key `s` other than the
full-range default, slicing composes as claimed: a full-range-default view is
re-sliced by replacing the specification over the same origin, and any other
view is wrapped as the origin of a new view; for the full-range key `s = [:]`
the view itself is returned unchanged. -/
theorem C8_composition_invariant (a : RawAgent α) (key : PySlice)
    (hkey : key ≠ sliceNone) :
    getitem_slice a key =
      if a.slice = sliceNone then
        (match a with
         | .of xs _ => RawAgent.of xs key
         | .over b _ => RawAgent.over b key)
      else RawAgent.over a key := by
  unfold getitem_slice
  simp [hkey]

/-- Witness for C8: composing a non-default view with a proper key wraps it. -/
theorem C8_composition_invariant_witness :
    (⟨some 1, none, none⟩ : PySlice) ≠ sliceNone ∧
    getitem_slice (RawAgent.of ([0, 1, 2] : List Int) ⟨none, none, some 2⟩)
        ⟨some 1, none, none⟩
      = RawAgent.over (RawAgent.of ([0, 1, 2] : List Int) ⟨none, none, some 2⟩)
          ⟨some 1, none, none⟩ := by
  refine ⟨by decide, ?_⟩
  rw [C8_composition_invariant _ _ (by decide)]
  decide

/-- C2 counterexample: on the view `x[0:2]` of `x = [0,1,2]` (logical length
2), `set(2, 99)` and `delete(2)` succeed and mutate `x[2]` — an element
outside the view — instead of raising `IndexError` as the claim requires for
a logical index outside `[0, n)`. -/
theorem C2_no_bounds_check_counterexample :
    (align ⟨some 0, some 2, none⟩ 3).n = 2 ∧
    setitem_int (align ⟨some 0, some 2, none⟩ 3) ([0, 1, 2] : List Int) 2 99
      = .ok [0, 1, 99] ∧
    delitem_int ⟨some 0, some 2, none⟩ (align ⟨some 0, some 2, none⟩ 3)
        ([0, 1, 2] : List Int) 2
      = .ok ([0, 1], align ⟨some 0, some 2, none⟩ 2) := by
  decide

/-- C2 (amended): `set(i, value)` and `delete(i)` perform no logical bounds
check at all; each resolves `translate(i) = start + i*step` directly against
the origin, so the origin's own index rules apply (negative physical indices
wrap by `len(origin)`, and `IndexError` arises exactly when the physical
index falls outside `[-len(origin), len(origin))`); an in-range physical
write mutates the origin at the resolved position and an in-range delete
removes it and realigns, whether or not the logical index lies in `[0, n)`. -/
theorem C2_set_delete_origin_level_semantics (sl : PySlice) (v : Aligned)
    (x : List α) (key : Int) (val : α) :
    (setitem_int v x key val = .error .indexError ↔
      (v.translate key < -(x.length : Int) ∨ (x.length : Int) ≤ v.translate key)) ∧
    (0 ≤ v.translate key → v.translate key < x.length →
      setitem_int v x key val = .ok (x.set (v.translate key).toNat val)) ∧
    (v.translate key < 0 → -(x.length : Int) ≤ v.translate key →
      setitem_int v x key val
        = .ok (x.set (v.translate key + x.length).toNat val)) ∧
    (delitem_int sl v x key = .error .indexError ↔
      (v.translate key < -(x.length : Int) ∨ (x.length : Int) ≤ v.translate key)) ∧
    (0 ≤ v.translate key → v.translate key < x.length →
      delitem_int sl v x key
        = .ok (x.eraseIdx (v.translate key).toNat,
            align sl (x.eraseIdx (v.translate key).toNat).length)) := by
  unfold setitem_int delitem_int pySetItem pyDelItem
  refine ⟨?_, ?_, ?_, ?_, ?_⟩
  · constructor
    · intro h
      by_contra hc
      push_neg at hc
      rcases (Nat.lt_or_ge 0 0) with _ | _ <;>
        · have h0 : pyResolve x.length (v.translate key) ≠ none := by
            unfold pyResolve
            by_cases hneg : v.translate key < 0 <;> simp only [hneg, if_true, if_false] <;>
              simp <;> omega
          rcases hr : pyResolve x.length (v.translate key) with _ | j
          · exact h0 hr
          · rw [hr] at h; exact Except.noConfusion h
    · intro h
      have : pyResolve x.length (v.translate key) = none :=
        (pyResolve_eq_none_iff _ _).mpr h
      rw [this]
  · intro h0 hL
    rw [pyResolve_eq_some _ _ h0 hL]
  · intro hneg hge
    unfold pyResolve
    simp only [hneg, if_true]
    have h1 : 0 ≤ v.translate key + ↑x.length ∧ v.translate key + ↑x.length < ↑x.length := by
      constructor <;> omega
    simp [h1.1, h1.2]
  · constructor
    · intro h
      by_contra hc
      push_neg at hc
      have h0 : pyResolve x.length (v.translate key) ≠ none := by
        unfold pyResolve
        by_cases hneg : v.translate key < 0 <;> simp only [hneg, if_true, if_false] <;>
          simp <;> omega
      rcases hr : pyResolve x.length (v.translate key) with _ | j
      · exact h0 hr
      · rw [hr] at h; exact Except.noConfusion h
    · intro h
      have : pyResolve x.length (v.translate key) = none :=
        (pyResolve_eq_none_iff _ _).mpr h
      rw [this]
  · intro h0 hL
    rw [pyResolve_eq_some _ _ h0 hL]

/-- Witness for C2's amended theorem: on the view `x[0:2]` of `[5,6,7]`,
`set(2, 9)` succeeds, writing physically at index 2. -/
theorem C2_set_delete_origin_level_semantics_witness :
    setitem_int (align ⟨some 0, some 2, none⟩ 3) ([5, 6, 7] : List Int) 2 9
      = .ok [5, 6, 9] :=
  (C2_set_delete_origin_level_semantics ⟨some 0, some 2, none⟩
      (align ⟨some 0, some 2, none⟩ 3) ([5, 6, 7] : List Int) 2 9).2.1
    (by decide) (by decide)

/-- C3 counterexample: assigning three values to a view of logical length
two succeeds with no length-mismatch error; the excess value is silently
dropped, refuting the claim that a mismatch in either direction fails. -/
theorem C3_excess_values_no_error :
    setitem_slice (align sliceNone 2) ([10, 20] : List Int) [1, 2, 3]
      = ([1, 2], none) := by
  decide

theorem setitem_sliceAux_spec (v : Aligned) (hstep : v.step ≠ 0) :
    ∀ (ks : List Nat) (vals x : List α),
      (∀ i ∈ ks, 0 ≤ v.translate i ∧ v.translate i < x.length) → ks.Nodup →
      (setitem_sliceAux v ks vals x).1.length = x.length ∧
      ((setitem_sliceAux v ks vals x).2 = some .valueError ↔
        vals.length < ks.length) ∧
      (∀ m : Nat, m < ks.length → m < vals.length → ∀ d : α,
        (setitem_sliceAux v ks vals x).1.getD (v.translate (ks.getD m 0)).toNat d
          = vals.getD m d) ∧
      (∀ p : Nat, (∀ i ∈ ks, v.translate i ≠ (p : Int)) → ∀ d : α,
        (setitem_sliceAux v ks vals x).1.getD p d = x.getD p d) := by
  intro ks
  induction ks with
  | nil =>
    intro vals x _ _
    refine ⟨rfl, by simp [setitem_sliceAux], by simp, fun p _ d => rfl⟩
  | cons i is ih =>
    intro vals x hb hnd
    match vals with
    | [] =>
      refine ⟨rfl, by simp [setitem_sliceAux], ?_, fun p _ d => rfl⟩
      intro m _ hm2
      simp at hm2
    | val :: vals' =>
      obtain ⟨h0, hL⟩ := hb i (List.mem_cons_self i is)
      have hset : pySetItem x (v.translate i) val
          = .ok (x.set (v.translate i).toNat val) := pySetItem_ok x _ val h0 hL
      have hjx : ((v.translate i).toNat : Int) = v.translate i :=
        Int.toNat_of_nonneg h0
      have hred : setitem_sliceAux v (i :: is) (val :: vals') x
          = setitem_sliceAux v is vals' (x.set (v.translate i).toNat val) := by
        rw [setitem_sliceAux, hset]
      have hb' : ∀ i' ∈ is,
          0 ≤ v.translate i' ∧
            v.translate i' < (x.set (v.translate i).toNat val).length := by
        intro i' hi'
        rw [List.length_set]
        exact hb i' (List.mem_cons_of_mem _ hi')
      obtain ⟨ihlen, ihiff, ihm, ihp⟩ :=
        ih vals' (x.set (v.translate i).toNat val) hb' hnd.of_cons
      rw [hred]
      refine ⟨by rw [ihlen, List.length_set], by simpa using ihiff, ?_, ?_⟩
      · intro m hm1 hm2 d
        match m with
        | 0 =>
          have hni : ∀ i' ∈ is, v.translate i' ≠ (((v.translate i).toNat : Nat) : Int) := by
            intro i' hi' hc
            rw [hjx] at hc
            have : (i' : Int) = (i : Int) := v.translate_inj hstep hc
            have : i' = i := by exact_mod_cast this
            exact (List.nodup_cons.mp hnd).1 (this ▸ hi')
          rw [show (i :: is).getD 0 0 = i from rfl]
          rw [ihp _ hni d]
          exact getD_set_self x _ val d (by omega)
        | Nat.succ m' =>
          have := ihm m' (by simpa using hm1) (by simpa using hm2) d
          simpa using this
      · intro p hp d
        rw [ihp p (fun i' hi' => hp i' (List.mem_cons_of_mem _ hi')) d]
        refine getD_set_ne x _ p val d ?_
        intro hjp
        exact hp i (List.mem_cons_self i is) (by rw [← hjp, hjx])

/-- C3 (amended): range assignment via a slice key assigns to the whole
view's logical range 0..n-1 (the slice key itself is disregarded), writing
element-by-element through the translator in logical order; it raises the
length-mismatch `ValueError` exactly when too few values are supplied, at
which point the first `len(values)` logical slots have already been
overwritten with no rollback; excess values are silently ignored and do not
raise. -/
theorem C3_range_assignment_partial_fail_fast (v : Aligned) (x vals : List α)
    (h : v.Consistent x.length) :
    ((setitem_slice v x vals).2 = some PyErr.valueError ↔
      vals.length < v.n.toNat) ∧
    (setitem_slice v x vals).1.length = x.length ∧
    (∀ m : Nat, m < v.n.toNat → m < vals.length → ∀ d : α,
      (setitem_slice v x vals).1.getD (v.translate m).toNat d
        = vals.getD m d) ∧
    (∀ p : Nat, (∀ k : Nat, k < v.n.toNat → v.translate k ≠ (p : Int)) →
      ∀ d : α, (setitem_slice v x vals).1.getD p d = x.getD p d) := by
  obtain ⟨hn0, hstep, hb⟩ := h
  have hbr : ∀ i ∈ List.range v.n.toNat,
      0 ≤ v.translate i ∧ v.translate i < x.length := by
    intro i hi
    exact hb i (List.mem_range.mp hi)
  have hrw : setitem_slice v x vals
      = setitem_sliceAux v (List.range v.n.toNat) vals x := by
    unfold setitem_slice
    rw [if_neg (by omega)]
  obtain ⟨hlen, hiff, hm, hp⟩ :=
    setitem_sliceAux_spec v hstep (List.range v.n.toNat) vals x hbr
      (List.nodup_range _)
  rw [hrw]
  refine ⟨by simpa using hiff, hlen, ?_, ?_⟩
  · intro m hm1 hm2 d
    have hgd : (List.range v.n.toNat).getD m 0 = m := by
      rw [List.getD_eq_getElem _ _ (by simpa using hm1)]
      exact List.getElem_range _ _
    have := hm m (by simpa using hm1) hm2 d
    rwa [hgd] at this
  · intro p hpk d
    exact hp p (fun i hi => hpk i (List.mem_range.mp hi)) d

/-- Witness for C3's amended theorem: writing two values into the length-3
view `x[:]` of `[7,8,9]` raises the length mismatch with the first two slots
already overwritten. -/
theorem C3_range_assignment_partial_fail_fast_witness :
    (setitem_slice (align sliceNone 3) ([7, 8, 9] : List Int) [1, 2]).2
      = some PyErr.valueError ∧
    setitem_slice (align sliceNone 3) ([7, 8, 9] : List Int) [1, 2]
      = ([1, 2, 9], some PyErr.valueError) :=
  ⟨(C3_range_assignment_partial_fail_fast (align sliceNone 3)
      ([7, 8, 9] : List Int) [1, 2] (by decide)).1.mpr (by decide),
   by decide⟩

/-- C4 (confirmed): on a consistently aligned view of logical length `n`,
`get(i)` raises `IndexError` exactly when `i` is outside `[-n, n)`; an
in-range `i` is first wrapped by `i % n` (the identity for `0 ≤ i < n`) and
resolves to the origin element at the translated index. -/
theorem C4_getitem_int_bounds_and_translation [Inhabited α] (v : Aligned)
    (x : List α) (h : v.Consistent x.length) (key : Int) :
    (getitem_int v x key = .error .indexError ↔ (key < -v.n ∨ v.n ≤ key)) ∧
    (-v.n ≤ key → key < v.n →
      getitem_int v x key
        = .ok (x.getD (v.translate (key % v.n)).toNat default)) := by
  obtain ⟨hn0, hstep, hb⟩ := h
  have hok : -v.n ≤ key → key < v.n →
      getitem_int v x key
        = .ok (x.getD (v.translate (key % v.n)).toNat default) := by
    intro hk1 hk2
    have hnpos : 0 < v.n := by
      rcases lt_or_le key 0 with hneg | hpos
      · omega
      · omega
    have hkmod0 : 0 ≤ key % v.n := Int.emod_nonneg key (by omega)
    have hkmodlt : key % v.n < v.n := Int.emod_lt_of_pos key hnpos
    have hbk := hb (key % v.n).toNat (by omega)
    rw [Int.toNat_of_nonneg hkmod0] at hbk
    have hget : pyGetItem x (v.translate (key % v.n))
        = .ok (x.getD (v.translate (key % v.n)).toNat default) :=
      pyGetItem_ok x _ hbk.1 hbk.2 default
    unfold getitem_int
    rw [if_neg (by omega), if_neg (by omega)]
    by_cases hneg : key < 0
    · rw [if_pos hneg, if_neg (by omega)]
      exact hget
    · have hkk : key % v.n = key := Int.emod_eq_of_lt (by omega) hk2
      rw [hkk] at hget
      rw [if_neg hneg, hkk]
      exact hget
  refine ⟨⟨?_, ?_⟩, hok⟩
  · intro herr
    by_contra hc
    push_neg at hc
    rw [hok (by omega) (by omega)] at herr
    exact Except.noConfusion herr
  · intro hout
    unfold getitem_int
    rw [if_neg (by omega)]
    rcases hout with hlo | hhi
    · rw [if_neg (by omega), if_pos (by omega), if_pos hlo]
    · rw [if_pos hhi]

/-- Witness for C4: on the view `x[1:-1:2]` of `[0,…,7]` (logical length 3),
`get(-1)` wraps to logical index 2 and returns the element at physical
index 5. -/
theorem C4_getitem_int_bounds_and_translation_witness :
    getitem_int (align ⟨some 1, some (-1), some 2⟩ 8)
        ([0, 1, 2, 3, 4, 5, 6, 7] : List Int) (-1) = .ok 5 ∧
    getitem_int (align ⟨some 1, some (-1), some 2⟩ 8)
        ([0, 1, 2, 3, 4, 5, 6, 7] : List Int) 3 = .error .indexError := by
  constructor
  · have h := (C4_getitem_int_bounds_and_translation
        (align ⟨some 1, some (-1), some 2⟩ 8)
        ([0, 1, 2, 3, 4, 5, 6, 7] : List Int) (by decide) (-1)).2
        (by decide) (by decide)
    rw [h]
    decide
  · exact (C4_getitem_int_bounds_and_translation
        (align ⟨some 1, some (-1), some 2⟩ 8)
        ([0, 1, 2, 3, 4, 5, 6, 7] : List Int) (by decide) 3).1.mpr
      (by decide)

theorem lawful_listStore (α : Type u) [Inhabited α] : (listStore α).Lawful where
  len_set s i v := List.length_set s i v
  get_set_self s i v h := getD_set_self s i v default h
  get_set_ne s i v j _ _ hne := getD_set_ne s i j v default (fun hc => hne hc.symm)

theorem tList_length (v : Aligned) : (tList v).length = v.n.toNat := by
  unfold tList
  rw [List.length_map, List.length_range]

theorem tList_getD (v : Aligned) (k : Nat) (hk : k < v.n.toNat) :
    (tList v).getD k 0 = v.translate k := by
  rw [List.getD_eq_getElem _ _ (by rw [tList_length]; exact hk)]
  unfold tList
  rw [List.getElem_map]
  rw [List.getElem_range]

theorem transOK_tList (v : Aligned) (L : Nat) (h : v.Consistent L) :
    TransOK (tList v) L := by
  obtain ⟨hn, hstep, hb⟩ := h
  constructor
  · intro k hk
    rw [tList_length] at hk
    rw [tList_getD v k hk]
    exact hb k hk
  · intro k hk k' hk' heq
    rw [tList_length] at hk hk'
    rw [tList_getD v k hk, tList_getD v k' hk'] at heq
    have := v.translate_inj hstep heq
    exact_mod_cast this

theorem vStore_get [Inhabited α] {tl : List Int} {L : Nat}
    (hok : TransOK tl L) (s : {xs : List α // xs.length = L}) (k : Nat)
    (hk : k < tl.length) :
    (vStore α tl L).get s k = s.1.getD (tl.getD k 0).toNat default := by
  obtain ⟨hb, _⟩ := hok
  obtain ⟨h0, hL⟩ := hb k hk
  show (match pyResolve L (tl.getD k 0) with
    | some j => s.1.getD j default
    | none => default) = _
  rw [pyResolve_eq_some _ _ h0 hL]

theorem vStore_set [Inhabited α] {tl : List Int} {L : Nat}
    (hok : TransOK tl L) (s : {xs : List α // xs.length = L}) (k : Nat)
    (hk : k < tl.length) (v₀ : α) :
    ((vStore α tl L).set s k v₀).1 = s.1.set (tl.getD k 0).toNat v₀ := by
  obtain ⟨hb, _⟩ := hok
  obtain ⟨h0, hL⟩ := hb k hk
  show (match pyResolve L (tl.getD k 0) with
    | some j => (⟨s.1.set j v₀, _⟩ : {xs : List α // xs.length = L})
    | none => s).1 = _
  rw [pyResolve_eq_some _ _ h0 hL]

theorem vStore_len [Inhabited α] {tl : List Int} {L : Nat}
    (s : {xs : List α // xs.length = L}) :
    (vStore α tl L).len s = tl.length := rfl

theorem lawful_vStore [Inhabited α] {tl : List Int} {L : Nat}
    (hok : TransOK tl L) : (vStore α tl L).Lawful := by
  have hdist : ∀ i j : Nat, i < tl.length → j < tl.length → j ≠ i →
      (tl.getD i 0).toNat ≠ (tl.getD j 0).toNat := by
    intro i j hi hj hne hc
    obtain ⟨hb, hinj⟩ := hok
    obtain ⟨hi0, _⟩ := hb i hi
    obtain ⟨hj0, _⟩ := hb j hj
    have : tl.getD i 0 = tl.getD j 0 := by omega
    exact hne (hinj j hj i hi this.symm)
  refine ⟨?_, ?_, ?_⟩
  · intro s i v
    rfl
  · intro s i v hi
    rw [show (vStore α tl L).len s = tl.length from rfl] at hi
    rw [vStore_get hok _ _ hi, vStore_set hok _ _ hi]
    refine getD_set_self _ _ _ _ ?_
    obtain ⟨hb, _⟩ := hok
    obtain ⟨_, hL⟩ := hb i hi
    rw [s.2]
    omega
  · intro s i v j hi hj hne
    rw [show (vStore α tl L).len s = tl.length from rfl] at hi hj
    rw [vStore_get hok _ _ hj, vStore_get hok _ _ hj, vStore_set hok _ _ hi]
    exact getD_set_ne _ _ _ _ _ (hdist i j hi hj hne)

theorem values_length (S : Store σ α) (s : σ) :
    (S.values s).length = S.len s := by
  simp [Store.values]

theorem values_getD (S : Store σ α) (s : σ) (k : Nat) (hk : k < S.len s)
    (d : α) : (S.values s).getD k d = S.get s k := by
  unfold Store.values
  rw [List.getD_eq_getElem _ _ (by simpa using hk)]
  simp

theorem values_set {S : Store σ α} (LS : S.Lawful) (s : σ) (k : Nat)
    (hk : k < S.len s) (v : α) :
    S.values (S.set s k v) = (S.values s).set k v := by
  apply List.ext_getElem
  · rw [values_length, LS.len_set, List.length_set, values_length]
  · intro m h1 h2
    have h1b : m < S.len s := by
      rw [values_length, LS.len_set] at h1
      exact h1
    rw [← List.getD_eq_getElem (S.values (S.set s k v)) v h1,
      ← List.getD_eq_getElem ((S.values s).set k v) v h2,
      values_getD S (S.set s k v) m (by rw [LS.len_set]; exact h1b) v]
    by_cases hkm : k = m
    · subst hkm
      rw [getD_set_self _ _ _ _ (by rw [values_length]; exact h1b)]
      exact LS.get_set_self s k v hk
    · rw [getD_set_ne _ _ _ _ _ hkm, values_getD S s m h1b v]
      exact LS.get_set_ne s k v m hk h1b (fun hc => hkm hc.symm)

theorem Reach.trans {S : Store σ α} {s t u : σ} (h1 : Reach S s t)
    (h2 : Reach S t u) : Reach S s u := by
  induction h2 with
  | refl => exact h1
  | step k v _ hk ih => exact .step k v ih hk

theorem Reach.len_eq {S : Store σ α} (LS : S.Lawful) {s t : σ}
    (h : Reach S s t) : S.len t = S.len s := by
  induction h with
  | refl => rfl
  | step k v _ _ ih => rw [LS.len_set]; exact ih

theorem Reach.set_self {S : Store σ α} {s : σ} {k : Nat} {v : α}
    (hk : k < S.len s) : Reach S s (S.set s k v) :=
  .step k v (.refl s) hk

theorem Reach.vStore_untouched [Inhabited α] {tl : List Int} {L : Nat}
    (hok : TransOK tl L) {s t : {xs : List α // xs.length = L}}
    (h : Reach (vStore α tl L) s t) (p : Nat)
    (hp : ∀ k : Nat, k < tl.length → (tl.getD k 0).toNat ≠ p) (d : α) :
    t.1.getD p d = s.1.getD p d := by
  induction h with
  | refl => rfl
  | step k v hr hk ih =>
    rw [show (vStore α tl L).len _ = tl.length from rfl] at hk
    rw [vStore_set hok _ _ hk]
    rw [getD_set_ne _ _ _ _ _ (hp k hk)]
    exact ih

theorem reverseLoop_spec {S : Store σ α} (LS : S.Lawful) :
    ∀ (i j : Int) (s : σ), 0 ≤ i → j < (S.len s : Int) →
      S.len (reverseLoop S i j s) = S.len s ∧
      (∀ k : Nat, k < S.len s →
        S.get (reverseLoop S i j s) k =
          if i ≤ (k : Int) ∧ (k : Int) ≤ j then
            S.get s (i + j - (k : Int)).toNat
          else S.get s k) := by
  intro i j s
  induction i, j, s using reverseLoop.induct (S := S) with
  | case1 i j s hij ih =>
    intro hi0 hjlt
    have hj0 : 0 ≤ j := le_trans hi0 hij
    have hiN : i.toNat < S.len s := by omega
    have hjN : j.toNat < S.len s := by omega
    rw [reverseLoop, dif_pos hij]
    set vi := S.get s i.toNat with hvi
    set vj := S.get s j.toNat with hvj
    set s1 := S.set (S.set s i.toNat vj) j.toNat vi with hs1
    have hlen1 : S.len s1 = S.len s := by rw [hs1, LS.len_set, LS.len_set]
    have hget1 : ∀ p : Nat, p < S.len s →
        S.get s1 p =
          if p = j.toNat then vi
          else if p = i.toNat then vj
          else S.get s p := by
      intro p hp
      by_cases hpj : p = j.toNat
      · subst hpj
        rw [if_pos rfl, hs1]
        exact LS.get_set_self _ _ _ (by rw [LS.len_set]; exact hjN)
      · rw [if_neg hpj, hs1,
          LS.get_set_ne _ _ _ _ (by rw [LS.len_set]; exact hjN)
            (by rw [LS.len_set]; exact hp) hpj]
        by_cases hpi : p = i.toNat
        · subst hpi
          rw [if_pos rfl]
          exact LS.get_set_self _ _ _ hiN
        · rw [if_neg hpi]
          exact LS.get_set_ne _ _ _ _ hiN hp hpi
    obtain ⟨ihlen, ihget⟩ := ih (by omega) (by rw [hlen1]; omega)
    refine ⟨by rw [ihlen, hlen1], ?_⟩
    intro k hk
    rw [ihget k (by rw [hlen1]; exact hk)]
    by_cases hc : i ≤ (k : Int) ∧ (k : Int) ≤ j
    · rw [if_pos hc]
      by_cases hki : (k : Int) = i
      · rw [if_neg (by omega)]
        rw [hget1 k hk]
        by_cases hkj : k = j.toNat
        · rw [if_pos hkj, hvi,
            show (i + j - (k : Int)).toNat = i.toNat by omega,
            show i.toNat = j.toNat by omega]
        · rw [if_neg hkj, if_pos (by omega : k = i.toNat), hvj,
            show (i + j - (k : Int)).toNat = j.toNat by omega]
      · by_cases hkj : (k : Int) = j
        · rw [if_neg (by omega)]
          rw [hget1 k hk, if_pos (by omega : k = j.toNat), hvi,
            show (i + j - (k : Int)).toNat = i.toNat by omega]
        · rw [if_pos (by omega : i + 1 ≤ (k : Int) ∧ (k : Int) ≤ j - 1)]
          have hmlen : (i + 1 + (j - 1) - (k : Int)).toNat < S.len s := by omega
          rw [hget1 _ hmlen,
            if_neg (by omega :
              ¬ (i + 1 + (j - 1) - (k : Int)).toNat = j.toNat),
            if_neg (by omega :
              ¬ (i + 1 + (j - 1) - (k : Int)).toNat = i.toNat),
            show (i + 1 + (j - 1) - (k : Int)).toNat
              = (i + j - (k : Int)).toNat by omega]
    · rw [if_neg hc, if_neg (by omega)]
      rw [hget1 k hk, if_neg (by omega : ¬ k = j.toNat),
        if_neg (by omega : ¬ k = i.toNat)]
  | case2 i j s hij =>
    intro hi0 hjlt
    rw [reverseLoop, dif_neg hij]
    exact ⟨rfl, fun k _ => by rw [if_neg (by omega)]⟩

theorem reach_reverseLoop {S : Store σ α} (LS : S.Lawful) :
    ∀ (i j : Int) (s : σ), 0 ≤ i → j < (S.len s : Int) →
      Reach S s (reverseLoop S i j s) := by
  intro i j s
  induction i, j, s using reverseLoop.induct (S := S) with
  | case1 i j s hij ih =>
    intro hi0 hjlt
    have hj0 : 0 ≤ j := le_trans hi0 hij
    have hiN : i.toNat < S.len s := by omega
    have hjN : j.toNat < S.len s := by omega
    rw [reverseLoop, dif_pos hij]
    have h1 : Reach S s (S.set s i.toNat (S.get s j.toNat)) :=
      Reach.set_self hiN
    have h2 : Reach S s
        (S.set (S.set s i.toNat (S.get s j.toNat)) j.toNat
          (S.get s i.toNat)) :=
      h1.trans (Reach.set_self (by rw [LS.len_set]; exact hjN))
    refine h2.trans (ih (by omega) ?_)
    rw [LS.len_set, LS.len_set]
    omega
  | case2 i j s hij =>
    intro _ _
    rw [reverseLoop, dif_neg hij]
    exact .refl s

theorem list_ext_getD [Inhabited α] (a b : List α) (hlen : a.length = b.length)
    (h : ∀ p : Nat, p < a.length → a.getD p default = b.getD p default) :
    a = b := by
  apply List.ext_getElem hlen
  intro p h1 h2
  have := h p h1
  rwa [List.getD_eq_getElem _ _ h1, List.getD_eq_getElem _ _ h2] at this

theorem sliceagentReverse_eq [Inhabited α] (v : Aligned) (y : List α)
    (L : Nat) (hy : y.length = L) :
    sliceagentReverse v y = (reverseStore (vStore α (tList v) L) ⟨y, hy⟩).1 := by
  subst hy
  rfl

theorem vReverse_spec [Inhabited α] (v : Aligned) (L : Nat)
    (hok : TransOK (tList v) L) (s : {xs : List α // xs.length = L}) :
    (∀ k : Nat, k < v.n.toNat →
      (reverseStore (vStore α (tList v) L) s).1.getD
          (v.translate (k : Int)).toNat default
        = s.1.getD (v.translate ((v.n.toNat - 1 - k : Nat) : Int)).toNat
            default) ∧
    (∀ p : Nat,
      (∀ k : Nat, k < v.n.toNat → (v.translate (k : Int)).toNat ≠ p) →
      ∀ d : α,
        (reverseStore (vStore α (tList v) L) s).1.getD p d = s.1.getD p d) := by
  have LS := lawful_vStore (α := α) hok
  set S := vStore α (tList v) L with hS
  have hlenS : ∀ t : {xs : List α // xs.length = L}, S.len t = v.n.toNat := by
    intro t
    rw [hS, vStore_len, tList_length]
  have hrs : reverseStore S s = reverseLoop S 0 ((S.len s : Int) - 1) s := rfl
  obtain ⟨hrl, hrg⟩ :=
    reverseLoop_spec LS 0 ((S.len s : Int) - 1) s (by omega) (by omega)
  constructor
  · intro k hk
    have hk' : k < S.len s := by rw [hlenS]; exact hk
    have h1 : (reverseStore S s).1.getD (v.translate (k : Int)).toNat default
        = S.get (reverseStore S s) k := by
      rw [hS, vStore_get hok _ k (by rw [tList_length]; exact hk),
        tList_getD v k hk]
    rw [h1, hrs, hrg k hk']
    rw [if_pos (by constructor <;> omega)]
    have hmk : ((0 : Int) + ((S.len s : Int) - 1) - (k : Int)).toNat
        = v.n.toNat - 1 - k := by
      rw [hlenS]
      omega
    rw [hmk]
    have hm : v.n.toNat - 1 - k < v.n.toNat := by omega
    rw [hS, vStore_get hok s _ (by rw [tList_length]; exact hm),
      tList_getD v _ hm]
  · intro p hp d
    have hreach : Reach S s (reverseStore S s) := by
      rw [hrs]
      exact reach_reverseLoop LS 0 ((S.len s : Int) - 1) s (by omega) (by omega)
    refine Reach.vStore_untouched hok hreach p ?_ d
    intro k hk
    rw [tList_length] at hk
    rw [tList_getD v k hk]
    exact hp k hk


/-- C9 (confirmed): on a consistently aligned view, `reverse()` performs the
pairwise exchange of logical positions `(k, n-1-k)` resolved through the
translator (third conjunct), touches no physical position outside the view's
translated index set (fourth conjunct), and applying it twice restores the
underlying sequence — and hence the view — to its original element order
(first conjunct). -/
theorem C9_reverse_involution [Inhabited α] (v : Aligned) (x : List α)
    (h : v.Consistent x.length) :
    sliceagentReverse v (sliceagentReverse v x) = x ∧
    (sliceagentReverse v x).length = x.length ∧
    (∀ k : Nat, k < v.n.toNat →
      (sliceagentReverse v x).getD (v.translate (k : Int)).toNat default
        = x.getD (v.translate ((v.n.toNat - 1 - k : Nat) : Int)).toNat
            default) ∧
    (∀ p : Nat,
      (∀ k : Nat, k < v.n.toNat → (v.translate (k : Int)).toNat ≠ p) →
      ∀ d : α, (sliceagentReverse v x).getD p d = x.getD p d) := by
  have hok := transOK_tList v x.length h
  obtain ⟨spec1, spec2⟩ := vReverse_spec v x.length hok ⟨x, rfl⟩
  have hy : sliceagentReverse v x
      = (reverseStore (vStore α (tList v) x.length) ⟨x, rfl⟩).1 := rfl
  obtain ⟨spec1', spec2'⟩ := vReverse_spec v x.length hok
    (reverseStore (vStore α (tList v) x.length) ⟨x, rfl⟩)
  have hylen := (reverseStore (vStore α (tList v) x.length)
    (⟨x, rfl⟩ : {xs : List α // xs.length = x.length})).2
  refine ⟨?_, by rw [hy]; exact hylen, ?_, ?_⟩
  · rw [hy]
    rw [sliceagentReverse_eq v _ x.length hylen]
    apply list_ext_getD
    · exact (reverseStore (vStore α (tList v) x.length) _).2
    · intro p _
      by_cases himg : ∃ k, k < v.n.toNat ∧ (v.translate (k : Int)).toNat = p
      · obtain ⟨k, hk, hpk⟩ := himg
        rw [← hpk]
        rw [show (⟨(reverseStore (vStore α (tList v) x.length) ⟨x, rfl⟩).1,
              hylen⟩ : {xs : List α // xs.length = x.length})
            = reverseStore (vStore α (tList v) x.length) ⟨x, rfl⟩ from rfl]
        rw [spec1' k hk]
        have hm : v.n.toNat - 1 - k < v.n.toNat := by omega
        rw [spec1 (v.n.toNat - 1 - k) hm]
        rw [show v.n.toNat - 1 - (v.n.toNat - 1 - k) = k by omega]
      · push_neg at himg
        rw [show (⟨(reverseStore (vStore α (tList v) x.length) ⟨x, rfl⟩).1,
              hylen⟩ : {xs : List α // xs.length = x.length})
            = reverseStore (vStore α (tList v) x.length) ⟨x, rfl⟩ from rfl]
        rw [spec2' p (fun k hk => himg k hk) default]
        exact spec2 p (fun k hk => himg k hk) default
  · intro k hk
    rw [hy]
    exact spec1 k hk
  · intro p hp d
    rw [hy]
    exact spec2 p hp d

/-- Witness for C9: reversing the view `x[::2]` of `[22,-5,2,4,7,8]` twice
restores the list. -/
theorem C9_reverse_involution_witness :
    sliceagentReverse (align ⟨none, none, some 2⟩ 6)
        (sliceagentReverse (align ⟨none, none, some 2⟩ 6)
          ([22, -5, 2, 4, 7, 8] : List Int))
      = [22, -5, 2, 4, 7, 8] :=
  (C9_reverse_involution (align ⟨none, none, some 2⟩ 6)
    ([22, -5, 2, 4, 7, 8] : List Int) (by decide)).1

theorem list_set_getD_self (a : List α) (k : Nat) (d : α) :
    a.set k (a.getD k d) = a := by
  by_cases hk : k < a.length
  · apply List.ext_getElem (by rw [List.length_set])
    intro m h1 h2
    rw [List.getElem_set]
    split
    · next heq =>
      subst heq
      rw [List.getD_eq_getElem a d hk]
    · rfl
  · rw [List.set_eq_of_length_le (by omega)]

theorem swap_perm [DecidableEq α] (b : List α) (i j : Nat) (hi : i < b.length)
    (hj : j < b.length) (hij : i ≠ j) (d : α) :
    ((b.set i (b.getD j d)).set j (b.getD i d)).Perm b := by
  rw [List.perm_iff_count]
  intro v
  have hgdj : b.getD j d = b[j] := List.getD_eq_getElem b d hj
  have hgdi : b.getD i d = b[i] := List.getD_eq_getElem b d hi
  have hlen1 : (b.set i (b.getD j d)).length = b.length := List.length_set b i _
  rw [List.count_set _ _ _ j (by rw [hlen1]; exact hj),
    List.count_set _ _ _ i hi]
  rw [List.getElem_set_ne hij]
  simp only [hgdi, hgdj]
  have hci : b[i] = v → 1 ≤ List.count v b := by
    intro h
    have : v ∈ b := h ▸ List.getElem_mem hi
    exact List.count_pos_iff.mpr this
  have hcj : b[j] = v → 1 ≤ List.count v b := by
    intro h
    have : v ∈ b := h ▸ List.getElem_mem hj
    exact List.count_pos_iff.mpr this
  by_cases h1 : b[i] = v <;> by_cases h2 : b[j] = v <;>
    simp only [h1, h2, beq_iff_eq, if_pos, if_neg, beq_self_eq_true] <;>
    simp_all

theorem reach_sortInner {S : Store σ α} [LinearOrder α] (LS : S.Lawful)
    (gap : Nat) (tmp : α) :
    ∀ (k : Nat) (s : σ), k < S.len s →
      Reach S s (sortInner S gap tmp k s) := by
  intro k s
  induction k, s using sortInner.induct S gap tmp with
  | case1 k s h ih =>
    intro hk
    rw [sortInner, dif_pos h]
    refine (Reach.set_self hk).trans (ih ?_)
    rw [LS.len_set]
    omega
  | case2 k s h =>
    intro hk
    rw [sortInner, dif_neg h]
    exact Reach.set_self hk

theorem values_sortInner {S : Store σ α} [LinearOrder α] [Inhabited α] (LS : S.Lawful)
    (gap : Nat) (tmp : α) :
    ∀ (k : Nat) (s : σ), k < S.len s →
      (S.values (sortInner S gap tmp k s)).Perm ((S.values s).set k tmp) := by
  intro k s
  induction k, s using sortInner.induct S gap tmp with
  | case1 k s h ih =>
    intro hk
    rw [sortInner, dif_pos h]
    have hkg : k - gap < S.len s := by omega
    have hkg' : k - gap < S.len (S.set s k (S.get s (k - gap))) := by
      rw [LS.len_set]; exact hkg
    have hperm := ih hkg'
    rw [values_set LS s k hk] at hperm
    refine hperm.trans ?_
    have hvg : S.get s (k - gap) = (S.values s).getD (k - gap) default :=
      (values_getD S s _ hkg default).symm
    set a := S.values s with ha
    have halen : a.length = S.len s := values_length S s
    set b := a.set k tmp with hb
    have hblen : b.length = a.length := List.length_set a k tmp
    have hne : k - gap ≠ k := by omega
    have e1 : a.set k (S.get s (k - gap)) = b.set k (b.getD (k - gap) default) := by
      rw [hb, List.set_set]
      rw [hvg]
      rw [getD_set_ne a k (k - gap) tmp default (by omega : k ≠ k - gap)]
    have e2 : tmp = b.getD k default := by
      rw [hb, getD_set_self a k tmp default (by omega)]
    rw [e1]
    nth_rewrite 1 [e2]
    exact swap_perm b k (k - gap) (by omega) (by omega) (by omega) default
  | case2 k s h =>
    intro hk
    rw [sortInner, dif_neg h]
    rw [values_set LS s k hk]

theorem reach_sortPassAux {S : Store σ α} [LinearOrder α] (LS : S.Lawful)
    (gap : Nat) :
    ∀ (ks : List Nat) (s : σ), (∀ k ∈ ks, k < S.len s) →
      Reach S s (sortPassAux S gap ks s) := by
  intro ks
  induction ks with
  | nil => intro s _; exact .refl s
  | cons k ks ih =>
    intro s hb
    have hk : k < S.len s := hb k (List.mem_cons_self k ks)
    have hr1 : Reach S s (sortInner S gap (S.get s k) k s) :=
      reach_sortInner LS gap _ k s hk
    refine hr1.trans (ih _ ?_)
    intro k' hk'
    rw [Reach.len_eq LS hr1]
    exact hb k' (List.mem_cons_of_mem _ hk')

theorem values_sortPassAux {S : Store σ α} [LinearOrder α] [Inhabited α] (LS : S.Lawful)
    (gap : Nat) :
    ∀ (ks : List Nat) (s : σ), (∀ k ∈ ks, k < S.len s) →
      (S.values (sortPassAux S gap ks s)).Perm (S.values s) := by
  intro ks
  induction ks with
  | nil => intro s _; exact .refl _
  | cons k ks ih =>
    intro s hb
    have hk : k < S.len s := hb k (List.mem_cons_self k ks)
    have h1 : (S.values (sortInner S gap (S.get s k) k s)).Perm (S.values s) := by
      have := values_sortInner LS gap (S.get s k) k s hk
      rwa [show (S.values s).set k (S.get s k) = S.values s by
        rw [← values_getD S s k hk default, list_set_getD_self]] at this
    have hr1 : Reach S s (sortInner S gap (S.get s k) k s) :=
      reach_sortInner LS gap _ k s hk
    refine Trans.trans (ih _ ?_) h1
    intro k' hk'
    rw [Reach.len_eq LS hr1]
    exact hb k' (List.mem_cons_of_mem _ hk')

theorem reach_sortGaps {S : Store σ α} [LinearOrder α] (LS : S.Lawful)
    (n : Nat) :
    ∀ (gap : Nat) (s : σ), n ≤ S.len s → Reach S s (sortGaps S n gap s) := by
  intro gap s
  induction gap, s using sortGaps.induct (S := S) (n := n) with
  | case1 gap s hgap ih =>
    intro hn
    rw [sortGaps, dif_pos hgap]
    have hb : ∀ k ∈ List.range n, k < S.len s := by
      intro k hk
      have := List.mem_range.mp hk
      omega
    have hr1 : Reach S s (sortPassAux S gap (List.range n) s) :=
      reach_sortPassAux LS gap _ s hb
    refine hr1.trans (ih ?_)
    rw [Reach.len_eq LS hr1]
    exact hn
  | case2 gap s hgap =>
    intro _
    rw [sortGaps, dif_neg hgap]
    exact .refl s

theorem values_sortGaps {S : Store σ α} [LinearOrder α] [Inhabited α] (LS : S.Lawful)
    (n : Nat) :
    ∀ (gap : Nat) (s : σ), n ≤ S.len s →
      (S.values (sortGaps S n gap s)).Perm (S.values s) := by
  intro gap s
  induction gap, s using sortGaps.induct (S := S) (n := n) with
  | case1 gap s hgap ih =>
    intro hn
    rw [sortGaps, dif_pos hgap]
    have hb : ∀ k ∈ List.range n, k < S.len s := by
      intro k hk
      have := List.mem_range.mp hk
      omega
    have hr1 : Reach S s (sortPassAux S gap (List.range n) s) :=
      reach_sortPassAux LS gap _ s hb
    refine Trans.trans (ih ?_) (values_sortPassAux LS gap _ s hb)
    rw [Reach.len_eq LS hr1]
    exact hn
  | case2 gap s hgap =>
    intro _
    rw [sortGaps, dif_neg hgap]

theorem reach_sortStore {S : Store σ α} [LinearOrder α] (LS : S.Lawful)
    (s : σ) : Reach S s (sortStore S s) :=
  reach_sortGaps LS (S.len s) (S.len s / 2) s le_rfl

theorem values_sortStore {S : Store σ α} [LinearOrder α] [Inhabited α] (LS : S.Lawful)
    (s : σ) : (S.values (sortStore S s)).Perm (S.values s) :=
  values_sortGaps LS (S.len s) (S.len s / 2) s le_rfl

theorem sortInner_one_sorted {S : Store σ α} [LinearOrder α] (LS : S.Lawful)
    (tmp : α) (K : Nat) :
    ∀ (k : Nat) (s : σ), k ≤ K → K < S.len s →
      (∀ a b : Nat, a < b → b < k → S.get s a ≤ S.get s b) →
      (∀ b : Nat, k < b → b ≤ K → tmp < S.get s b) →
      (∀ a b : Nat, k < a → a < b → b ≤ K → S.get s a ≤ S.get s b) →
      (∀ a b : Nat, a < k → k < b → b ≤ K → S.get s a ≤ S.get s b) →
      (∀ a b : Nat, a < b → b ≤ K →
        S.get (sortInner S 1 tmp k s) a ≤ S.get (sortInner S 1 tmp k s) b) := by
  intro k s
  induction k, s using sortInner.induct S 1 tmp with
  | case1 k s h ih =>
    intro hkK hK hA hB hC hD
    obtain ⟨-, hk1, hlt⟩ := h
    rw [sortInner, dif_pos ⟨Nat.one_pos, hk1, hlt⟩]
    have hkl : k < S.len s := by omega
    have hget' : ∀ p : Nat, p ≤ K →
        S.get (S.set s k (S.get s (k - 1))) p =
          if p = k then S.get s (k - 1) else S.get s p := by
      intro p hp
      by_cases hpk : p = k
      · rw [hpk, if_pos rfl]
        exact LS.get_set_self s k _ hkl
      · rw [if_neg hpk]
        exact LS.get_set_ne s k _ p hkl (by omega) hpk
    apply ih
    · omega
    · rw [LS.len_set]; omega
    · intro a b hab hbk
      rw [hget' a (by omega), hget' b (by omega),
        if_neg (by omega), if_neg (by omega)]
      exact hA a b hab (by omega)
    · intro b hb1 hb2
      rw [hget' b hb2]
      by_cases hbk : b = k
      · rw [if_pos hbk]
        exact hlt
      · rw [if_neg hbk]
        exact hB b (by omega) hb2
    · intro a b ha hab hbK
      rw [hget' a (by omega), hget' b hbK]
      by_cases hak : a = k
      · rw [if_pos hak, if_neg (by omega)]
        exact hD (k - 1) b (by omega) (by omega) hbK
      · by_cases hbk : b = k
        · exact absurd hab (by omega)
        · rw [if_neg hak, if_neg hbk]
          exact hC a b (by omega) hab hbK
    · intro a b ha hb1 hbK
      rw [hget' a (by omega), hget' b hbK, if_neg (by omega)]
      by_cases hbk : b = k
      · rw [if_pos hbk]
        exact hA a (k - 1) (by omega) (by omega)
      · rw [if_neg hbk]
        exact hD a b (by omega) (by omega) hbK
  | case2 k s h =>
    intro hkK hK hA hB hC hD
    rw [sortInner, dif_neg h]
    have hkl : k < S.len s := by omega
    have hcase : k = 0 ∨ S.get s (k - 1) ≤ tmp := by
      by_cases hk0 : k = 0
      · exact .inl hk0
      · right
        refine le_of_not_lt ?_
        intro hc
        exact h ⟨Nat.one_pos, by omega, hc⟩
    have hgetf : ∀ p : Nat, p ≤ K →
        S.get (S.set s k tmp) p = if p = k then tmp else S.get s p := by
      intro p hp
      by_cases hpk : p = k
      · rw [hpk, if_pos rfl]
        exact LS.get_set_self s k _ hkl
      · rw [if_neg hpk]
        exact LS.get_set_ne s k _ p hkl (by omega) hpk
    intro a b hab hbK
    rw [hgetf a (by omega), hgetf b hbK]
    by_cases hak : a = k <;> by_cases hbk : b = k
    · exact absurd hab (by omega)
    · rw [if_pos hak, if_neg hbk]
      exact le_of_lt (hB b (by omega) hbK)
    · rw [if_neg hak, if_pos hbk]
      rcases hcase with h0 | hle
      · exact absurd hab (by omega)
      · by_cases hak1 : a = k - 1
        · exact hak1 ▸ hle
        · exact le_trans (hA a (k - 1) (by omega) (by omega)) hle
    · rw [if_neg hak, if_neg hbk]
      by_cases hbltk : b < k
      · exact hA a b hab hbltk
      · by_cases haltk : a < k
        · exact hD a b haltk (by omega) hbK
        · exact hC a b (by omega) hab hbK

theorem sortPass_one_sorted {S : Store σ α} [LinearOrder α] (LS : S.Lawful) :
    ∀ (c m : Nat) (s : σ), m + c = S.len s →
      (∀ a b : Nat, a < b → b < m → S.get s a ≤ S.get s b) →
      (∀ a b : Nat, a < b → b < S.len s →
        S.get (sortPassAux S 1 (List.range' m c) s) a
          ≤ S.get (sortPassAux S 1 (List.range' m c) s) b) := by
  intro c
  induction c with
  | zero =>
    intro m s hms hA a b hab hb
    exact hA a b hab (by omega)
  | succ c ih =>
    intro m s hms hA
    rw [List.range'_succ]
    have hm : m < S.len s := by omega
    have hsorted := sortInner_one_sorted LS (S.get s m) m m s le_rfl hm hA
      (fun b h1 h2 => absurd h1 (by omega))
      (fun a b h1 h2 h3 => absurd h1 (by omega))
      (fun a b h1 h2 h3 => absurd h2 (by omega))
    have hA' : ∀ a b : Nat, a < b → b < m + 1 →
        S.get (sortInner S 1 (S.get s m) m s) a
          ≤ S.get (sortInner S 1 (S.get s m) m s) b := by
      intro a b hab hb
      exact hsorted a b hab (by omega)
    have hlen' : S.len (sortInner S 1 (S.get s m) m s) = S.len s :=
      Reach.len_eq LS (reach_sortInner LS 1 (S.get s m) m s hm)
    show ∀ a b : Nat, a < b → b < S.len s → _
    have := ih (m + 1) (sortInner S 1 (S.get s m) m s) (by omega) hA'
    intro a b hab hb
    exact this a b hab (by rw [hlen']; exact hb)

theorem nextGap_eq_zero (gap : Nat) (h0 : 0 < gap) (h : nextGap gap = 0) :
    gap = 1 := by
  unfold nextGap at h
  by_cases h2 : gap = 2
  · rw [if_pos h2] at h
    exact absurd h (by omega)
  · rw [if_neg h2] at h
    have : gap * 5 < 11 := (Nat.div_eq_zero_iff (by omega)).mp h
    omega

theorem sortGaps_sorted {S : Store σ α} [LinearOrder α] (LS : S.Lawful)
    (n : Nat) :
    ∀ (gap : Nat) (s : σ), n = S.len s → 0 < gap →
      ∀ a b : Nat, a < b → b < n →
        S.get (sortGaps S n gap s) a ≤ S.get (sortGaps S n gap s) b := by
  intro gap s
  induction gap, s using sortGaps.induct (S := S) (n := n) with
  | case1 gap s hgap ih =>
    intro hn _
    rw [sortGaps, dif_pos hgap]
    have hb : ∀ k ∈ List.range n, k < S.len s := by
      intro k hk
      have := List.mem_range.mp hk
      omega
    have hlen1 : S.len (sortPassAux S gap (List.range n) s) = S.len s :=
      Reach.len_eq LS (reach_sortPassAux LS gap _ s hb)
    by_cases hng : nextGap gap = 0
    · have hgap1 : gap = 1 := nextGap_eq_zero gap hgap hng
      rw [hng, sortGaps, dif_neg (by omega)]
      subst hgap1
      intro a b hab hbn
      have := sortPass_one_sorted LS n 0 s (by omega)
        (fun a b h1 h2 => absurd h2 (by omega))
      rw [List.range_eq_range']
      exact this a b hab (by omega)
    · exact ih (by rw [hlen1]; exact hn) (Nat.pos_of_ne_zero hng)
  | case2 gap s hgap =>
    intro _ h0
    exact absurd h0 hgap

theorem sortStore_sorted {S : Store σ α} [LinearOrder α] (LS : S.Lawful)
    (s : σ) :
    ∀ a b : Nat, a < b → b < S.len s →
      S.get (sortStore S s) a ≤ S.get (sortStore S s) b := by
  unfold sortStore
  by_cases hg : 0 < S.len s / 2
  · exact sortGaps_sorted LS (S.len s) (S.len s / 2) s rfl hg
  · intro a b hab hb
    rw [sortGaps, dif_neg hg]
    exact absurd hab (by omega)

theorem list_map_getD_range [Inhabited α] (y : List α) :
    (List.range y.length).map (fun p => y.getD p default) = y := by
  apply List.ext_getElem
  · rw [List.length_map, List.length_range]
  · intro m h1 h2
    rw [List.getElem_map, List.getElem_range]
    exact List.getD_eq_getElem y default h2

theorem origin_perm_of_values_perm [Inhabited α] [DecidableEq α]
    {tl : List Int} {L : Nat} (hok : TransOK tl L)
    (s t : {xs : List α // xs.length = L})
    (hv : ((vStore α tl L).values t).Perm ((vStore α tl L).values s))
    (hu : ∀ p : Nat, (∀ k : Nat, k < tl.length → (tl.getD k 0).toNat ≠ p) →
      t.1.getD p default = s.1.getD p default) :
    t.1.Perm s.1 := by
  rw [List.perm_iff_count]
  intro v
  set Q : Nat → Bool :=
    fun p => (List.range tl.length).any (fun k => (tl.getD k 0).toNat == p)
    with hQ
  set phys : List Nat := (List.range tl.length).map (fun k => (tl.getD k 0).toNat)
    with hphys
  have hphys_nodup : phys.Nodup := by
    rw [hphys]
    refine List.Nodup.map_on ?_ (List.nodup_range _)
    intro x hx y hy hxy
    obtain ⟨hb, hinj⟩ := hok
    have hxr := List.mem_range.mp hx
    have hyr := List.mem_range.mp hy
    have h1 := (hb x hxr).1
    have h2 := (hb y hyr).1
    exact hinj x hxr y hyr (by omega)
  have hfilter_perm : (List.filter Q (List.range L)).Perm phys := by
    rw [List.perm_ext_iff_of_nodup ((List.nodup_range L).filter Q) hphys_nodup]
    intro p
    rw [List.mem_filter, List.mem_range, hQ]
    constructor
    · rintro ⟨hpL, hany⟩
      rw [List.any_eq_true] at hany
      obtain ⟨k, hk, hkp⟩ := hany
      rw [hphys]
      exact List.mem_map.mpr ⟨k, hk, by simpa using hkp⟩
    · intro hp
      rw [hphys] at hp
      obtain ⟨k, hk, hkp⟩ := List.mem_map.mp hp
      have hkr := List.mem_range.mp hk
      obtain ⟨hb, _⟩ := hok
      have hbk := hb k hkr
      constructor
      · omega
      · rw [List.any_eq_true]
        exact ⟨k, hk, by simpa using hkp⟩
  have hdec : ∀ (y : {xs : List α // xs.length = L}),
      List.count v y.1 =
        List.count v
          ((List.filter Q (List.range L)).map (fun p => y.1.getD p default)) +
        List.count v
          ((List.filter (fun p => ! Q p) (List.range L)).map
            (fun p => y.1.getD p default)) := by
    intro y
    conv_lhs => rw [← list_map_getD_range y.1]
    rw [y.2]
    have hsplit :
        ((List.filter Q (List.range L)) ++
          (List.filter (fun p => ! Q p) (List.range L))).Perm (List.range L) :=
      List.filter_append_perm Q (List.range L)
    have hcnt := (hsplit.map (fun p => y.1.getD p default)).count_eq v
    rw [List.map_append, List.count_append] at hcnt
    exact hcnt.symm
  have himg : ∀ (y : {xs : List α // xs.length = L}),
      phys.map (fun p => y.1.getD p default) = (vStore α tl L).values y := by
    intro y
    rw [hphys, List.map_map]
    unfold Store.values
    rw [show (vStore α tl L).len y = tl.length from rfl]
    apply List.map_congr_left
    intro k hk
    have hkr := List.mem_range.mp hk
    rw [vStore_get hok y k hkr]
    rfl
  have hoff :
      (List.filter (fun p => ! Q p) (List.range L)).map
          (fun p => t.1.getD p default)
        = (List.filter (fun p => ! Q p) (List.range L)).map
            (fun p => s.1.getD p default) := by
    apply List.map_congr_left
    intro p hp
    rw [List.mem_filter] at hp
    apply hu
    intro k hk hkp
    have hQp : Q p = true := by
      rw [hQ, List.any_eq_true]
      exact ⟨k, List.mem_range.mpr hk, by simpa using hkp⟩
    rw [hQp] at hp
    simp at hp
  rw [hdec t, hdec s, hoff]
  have himgcnt :
      List.count v
          ((List.filter Q (List.range L)).map (fun p => t.1.getD p default))
        = List.count v
            ((List.filter Q (List.range L)).map (fun p => s.1.getD p default)) := by
    have h1 := (hfilter_perm.map (fun p => t.1.getD p default)).count_eq v
    have h2 := (hfilter_perm.map (fun p => s.1.getD p default)).count_eq v
    rw [h1, h2, himg t, himg s]
    exact hv.count_eq v
  rw [himgcnt]

/-- C5 (confirmed): on a consistently aligned view over a list of totally
ordered elements, `sort()` leaves the view's logical positions holding a
non-decreasing sequence (first conjunct), the underlying list holds the same
multiset of elements as before (second conjunct), and every physical position
outside the view's translated index set is unchanged (third conjunct). -/
theorem C5_shell_sort_spec [Inhabited α] [LinearOrder α] (v : Aligned)
    (x : List α) (h : v.Consistent x.length) :
    (∀ a b : Nat, a < b → b < v.n.toNat →
      (sliceagentSort v x).getD (v.translate (a : Int)).toNat default
        ≤ (sliceagentSort v x).getD (v.translate (b : Int)).toNat default) ∧
    (sliceagentSort v x).Perm x ∧
    (∀ p : Nat,
      (∀ k : Nat, k < v.n.toNat → (v.translate (k : Int)).toNat ≠ p) →
      ∀ d : α, (sliceagentSort v x).getD p d = x.getD p d) := by
  classical
  have hok := transOK_tList v x.length h
  have LS := lawful_vStore (α := α) hok
  have hres : sliceagentSort v x
      = (sortStore (vStore α (tList v) x.length) ⟨x, rfl⟩).1 := rfl
  have hlenS : (vStore α (tList v) x.length).len
      (⟨x, rfl⟩ : {xs : List α // xs.length = x.length}) = v.n.toNat := by
    rw [vStore_len, tList_length]
  have hreach := reach_sortStore (S := vStore α (tList v) x.length) LS ⟨x, rfl⟩
  refine ⟨?_, ?_, ?_⟩
  · intro a b hab hb
    have hsorted := sortStore_sorted LS
      (⟨x, rfl⟩ : {xs : List α // xs.length = x.length}) a b hab
      (by rw [hlenS]; exact hb)
    have hka : a < (tList v).length := by rw [tList_length]; omega
    have hkb : b < (tList v).length := by rw [tList_length]; exact hb
    rw [vStore_get hok _ a hka, vStore_get hok _ b hkb,
      tList_getD v a (by omega), tList_getD v b hb] at hsorted
    rw [hres]
    exact hsorted
  · rw [hres]
    refine origin_perm_of_values_perm hok ⟨x, rfl⟩ _ (values_sortStore LS _) ?_
    intro p hp
    exact Reach.vStore_untouched hok hreach p hp default
  · intro p hp d
    rw [hres]
    refine Reach.vStore_untouched hok hreach p ?_ d
    intro k hk
    rw [tList_length] at hk
    rw [tList_getD v k hk]
    exact hp k hk

/-- Witness for C5: sorting the view `x[1:]` of `[22,7,2,-5,8,4]` permutes
the underlying list (to `[22,-5,2,4,7,8]`, per the source's doctest) and
leaves the untouched position 0 intact. -/
theorem C5_shell_sort_spec_witness :
    (sliceagentSort (align ⟨some 1, none, none⟩ 6)
        ([22, 7, 2, -5, 8, 4] : List Int)).Perm [22, 7, 2, -5, 8, 4] ∧
    (sliceagentSort (align ⟨some 1, none, none⟩ 6)
        ([22, 7, 2, -5, 8, 4] : List Int)).getD 0 0 = 22 :=
  ⟨(C5_shell_sort_spec (align ⟨some 1, none, none⟩ 6)
      ([22, 7, 2, -5, 8, 4] : List Int) (by decide)).2.1,
   by
    have := (C5_shell_sort_spec (align ⟨some 1, none, none⟩ 6)
      ([22, 7, 2, -5, 8, 4] : List Int) (by decide)).2.2 0 (by decide) 0
    rw [this]
    decide⟩

theorem Desc.le {p q : Nat} (h : Desc p q) : p ≤ q := by
  induction h with
  | refl => exact le_rfl
  | left _ ih => omega
  | right _ ih => omega

theorem Desc.chain {p q r : Nat} (h1 : Desc p q) (h2 : Desc q r) :
    Desc p r := by
  induction h2 with
  | refl => exact h1
  | left _ ih => exact .left ih
  | right _ ih => exact .right ih

theorem Desc.parent {p c : Nat} (h : Desc p c) (hne : c ≠ p) :
    ∃ j, Desc p j ∧ IsChild c j := by
  cases h with
  | refl => exact absurd rfl hne
  | left h => exact ⟨_, h, .inl rfl⟩
  | right h => exact ⟨_, h, .inr rfl⟩

theorem IsChild.parent_eq {c j j' : Nat} (h1 : IsChild c j)
    (h2 : IsChild c j') : j = j' := by
  unfold IsChild at h1 h2
  omega

theorem IsChild.parent_div {c j : Nat} (h : IsChild c j) : j = (c - 1) / 2 := by
  unfold IsChild at h
  omega

theorem IsChild.lt {c j : Nat} (h : IsChild c j) : j < c := by
  unfold IsChild at h
  omega

theorem desc_child {p j c : Nat} (hd : Desc p j) (hc : IsChild c j) :
    Desc p c := by
  rcases hc with h | h
  · exact h ▸ Desc.left hd
  · exact h ▸ Desc.right hd

theorem not_desc_child {p j c : Nat} (hp : p ≤ j) (hnd : ¬ Desc p j)
    (hc : IsChild c j) : ¬ Desc p c := by
  intro hdc
  have hcj : j < c := hc.lt
  obtain ⟨j', hdj', hc'⟩ := hdc.parent (by omega)
  have := hc.parent_eq hc'
  exact hnd (this ▸ hdj')

theorem siftdownLoop_spec {S : Store σ α} [LinearOrder α] [Inhabited α]
    (LS : S.Lawful) (w : α) (p n : Nat) :
    ∀ (q : Nat) (u : σ), n = S.len u → Desc p q → q < n →
      (∀ j c : Nat, Desc p j → j < n → IsChild c j → c < n → c ≠ q →
        S.get u j ≤ S.get u c) →
      (∀ c : Nat, IsChild c q → c < n → w ≤ S.get u c) →
      (∀ c : Nat, p < q → IsChild c q → c < n →
        S.get u ((q - 1) / 2) ≤ S.get u c) →
      (∀ j c : Nat, Desc p j → j < n → IsChild c j → c < n →
        S.get (S.set (siftdownLoop S w p q u).1 (siftdownLoop S w p q u).2 w) j
          ≤ S.get (S.set (siftdownLoop S w p q u).1
              (siftdownLoop S w p q u).2 w) c) ∧
      (∀ j : Nat, j < n → ¬ Desc p j →
        S.get (S.set (siftdownLoop S w p q u).1
            (siftdownLoop S w p q u).2 w) j = S.get u j) ∧
      (S.values (S.set (siftdownLoop S w p q u).1
          (siftdownLoop S w p q u).2 w)).Perm (S.values (S.set u q w)) ∧
      Reach S u (S.set (siftdownLoop S w p q u).1
        (siftdownLoop S w p q u).2 w) := by
  intro q u
  induction q, u using siftdownLoop.induct S w p with
  | case1 q u hpq hlt ih =>
    intro hn hdq hqn hA hB hF
    have hqn' : q ≠ p := by omega
    obtain ⟨j₀, hdj₀, hcj₀⟩ := hdq.parent hqn'
    have hj₀ : j₀ = (q - 1) / 2 := hcj₀.parent_div
    have hdq' : Desc p ((q - 1) / 2) := hj₀ ▸ hdj₀
    have hcq : IsChild q ((q - 1) / 2) := hj₀ ▸ hcj₀
    have hq'n : (q - 1) / 2 < n := by omega
    have hq'q : (q - 1) / 2 ≠ q := by omega
    rw [siftdownLoop, dif_pos hpq, if_pos hlt]
    set u' := S.set u q (S.get u ((q - 1) / 2)) with hu'
    have hget' : ∀ m : Nat, m < n →
        S.get u' m = if m = q then S.get u ((q - 1) / 2) else S.get u m := by
      intro m hm
      by_cases hmq : m = q
      · rw [hmq, if_pos rfl, hu']
        exact LS.get_set_self u q _ (by omega)
      · rw [if_neg hmq, hu']
        exact LS.get_set_ne u q _ m (by omega) (by omega) hmq
    have hA' : ∀ j c : Nat, Desc p j → j < n → IsChild c j → c < n →
        c ≠ (q - 1) / 2 → S.get u' j ≤ S.get u' c := by
      intro j c hdj hjn hcj hcn hcq'
      by_cases hcqq : c = q
      · have hjq' : j = (q - 1) / 2 := (hcqq ▸ hcj).parent_eq hcq
        rw [hget' j hjn, hget' c hcn,
          if_neg (by omega : ¬ j = q), if_pos hcqq, hjq']
      · by_cases hjq : j = q
        · rw [hget' j hjn, hget' c hcn, if_pos hjq, if_neg hcqq]
          exact hF c hpq (hjq ▸ hcj) hcn
        · rw [hget' j hjn, hget' c hcn, if_neg hjq, if_neg hcqq]
          exact hA j c hdj hjn hcj hcn hcqq
    have hB' : ∀ c : Nat, IsChild c ((q - 1) / 2) → c < n →
        w ≤ S.get u' c := by
      intro c hc hcn
      by_cases hcqq : c = q
      · rw [hget' c hcn, if_pos hcqq]
        exact le_of_lt hlt
      · rw [hget' c hcn, if_neg hcqq]
        exact le_trans (le_of_lt hlt) (hA _ c hdq' hq'n hc hcn hcqq)
    have hF' : ∀ c : Nat, p < (q - 1) / 2 → IsChild c ((q - 1) / 2) →
        c < n → S.get u' (((q - 1) / 2 - 1) / 2) ≤ S.get u' c := by
      intro c hpq' hc hcn
      have hq'p : (q - 1) / 2 ≠ p := by omega
      obtain ⟨g, hdg, hcg⟩ := hdq'.parent hq'p
      have hg : g = ((q - 1) / 2 - 1) / 2 := hcg.parent_div
      have hgq : ((q - 1) / 2 - 1) / 2 ≠ q := by
        have := hcg.lt
        omega
      have hgn : ((q - 1) / 2 - 1) / 2 < n := by
        have := hcg.lt
        omega
      have hgp : S.get u (((q - 1) / 2 - 1) / 2) ≤ S.get u ((q - 1) / 2) := by
        have := hA _ _ (hg ▸ hdg) hgn (hg ▸ hcg) hq'n hq'q
        exact this
      by_cases hcqq : c = q
      · rw [hget' _ hgn, hget' c hcn, if_neg hgq, if_pos hcqq]
        exact hgp
      · rw [hget' _ hgn, hget' c hcn, if_neg hgq, if_neg hcqq]
        exact le_trans hgp (hA _ c hdq' hq'n hc hcn hcqq)
    obtain ⟨ih1, ih2, ih3, ih4⟩ := ih (by rw [hu', LS.len_set]; exact hn)
      hdq' hq'n hA' hB' hF'
    refine ⟨ih1, ?_, ?_, ?_⟩
    · intro j hjn hnd
      rw [ih2 j hjn hnd, hget' j hjn, if_neg (by
        intro hc
        exact hnd (hc ▸ hdq))]
    · refine ih3.trans ?_
      have e0 : S.values u' = (S.values u).set q (S.get u ((q - 1) / 2)) :=
        values_set LS u q (by omega) _
      rw [values_set LS u' ((q - 1) / 2) (by rw [hu', LS.len_set]; omega) w,
        values_set LS u q (by omega) w, e0]
      set a := S.values u with ha
      have halen : a.length = S.len u := values_length S u
      have hvg : S.get u ((q - 1) / 2) = a.getD ((q - 1) / 2) default :=
        (values_getD S u _ (by omega) default).symm
      set b := a.set q w with hb
      have hblen : b.length = a.length := by rw [hb, List.length_set]
      have e1 : a.set q (S.get u ((q - 1) / 2))
          = b.set q (b.getD ((q - 1) / 2) default) := by
        rw [hb, List.set_set, hvg,
          getD_set_ne a q ((q - 1) / 2) w default (by omega)]
      have e2 : w = b.getD q default := by
        rw [hb, getD_set_self a q w default (by omega)]
      rw [e1]
      nth_rewrite 1 [e2]
      exact swap_perm b q ((q - 1) / 2) (by omega) (by omega) (by omega) default
    · refine (Reach.set_self (by omega)).trans ih4
  | case2 q u hpq hnlt =>
    intro hn hdq hqn hA hB hF
    have hqn' : q ≠ p := by omega
    obtain ⟨j₀, hdj₀, hcj₀⟩ := hdq.parent hqn'
    have hj₀ : j₀ = (q - 1) / 2 := hcj₀.parent_div
    rw [siftdownLoop, dif_pos hpq, if_neg hnlt]
    have hple : S.get u ((q - 1) / 2) ≤ w := le_of_not_lt hnlt
    have hget' : ∀ m : Nat, m < n →
        S.get (S.set u q w) m = if m = q then w else S.get u m := by
      intro m hm
      by_cases hmq : m = q
      · rw [hmq, if_pos rfl]
        exact LS.get_set_self u q _ (by omega)
      · rw [if_neg hmq]
        exact LS.get_set_ne u q _ m (by omega) (by omega) hmq
    refine ⟨?_, ?_, .refl _, Reach.set_self (by omega)⟩
    · intro j c hdj hjn hcj hcn
      by_cases hcq : c = q
      · have hjq' : j = (q - 1) / 2 := (hcq ▸ hcj).parent_eq (hj₀ ▸ hcj₀)
        rw [hget' j hjn, hget' c hcn, if_neg (by omega : ¬ j = q),
          if_pos hcq, hjq']
        exact hple
      · by_cases hjq : j = q
        · rw [hget' j hjn, hget' c hcn, if_pos hjq, if_neg hcq]
          exact hB c (hjq ▸ hcj) hcn
        · rw [hget' j hjn, hget' c hcn, if_neg hjq, if_neg hcq]
          exact hA j c hdj hjn hcj hcn hcq
    · intro j hjn hnd
      rw [hget' j hjn, if_neg (by
        intro hc
        exact hnd (hc ▸ hdq))]
  | case3 q u hpq =>
    intro hn hdq hqn hA hB hF
    have hqp : q = p := by
      have := hdq.le
      omega
    rw [siftdownLoop, dif_neg hpq]
    have hget' : ∀ m : Nat, m < n →
        S.get (S.set u q w) m = if m = q then w else S.get u m := by
      intro m hm
      by_cases hmq : m = q
      · rw [hmq, if_pos rfl]
        exact LS.get_set_self u q _ (by omega)
      · rw [if_neg hmq]
        exact LS.get_set_ne u q _ m (by omega) (by omega) hmq
    refine ⟨?_, ?_, .refl _, Reach.set_self (by omega)⟩
    · intro j c hdj hjn hcj hcn
      have hcq : c ≠ q := by
        have h1 := hdj.le
        have h2 := hcj.lt
        omega
      by_cases hjq : j = q
      · rw [hget' j hjn, hget' c hcn, if_pos hjq, if_neg hcq]
        exact hB c (hjq ▸ hcj) hcn
      · rw [hget' j hjn, hget' c hcn, if_neg hjq, if_neg hcq]
        exact hA j c hdj hjn hcj hcn hcq
    · intro j hjn hnd
      rw [hget' j hjn, if_neg (by
        intro hc
        exact hnd (hc ▸ hdq))]

theorem set_chain_perm [DecidableEq α] [Inhabited α] (a : List α)
    (c ch : Nat) (w : α) (hc : c < a.length) (hch : ch < a.length)
    (hne : c ≠ ch) :
    ((a.set c (a.getD ch default)).set ch w).Perm (a.set c w) := by
  set b := a.set c w with hb
  have hblen : b.length = a.length := List.length_set a c w
  have e1 : a.set c (a.getD ch default) = b.set c (b.getD ch default) := by
    rw [hb, List.set_set, getD_set_ne a c ch w default hne]
  have e2 : w = b.getD c default := by
    rw [hb, getD_set_self a c w default hc]
  rw [e1]
  nth_rewrite 1 [e2]
  exact swap_perm b c ch (by omega) (by omega) hne default

theorem siftupLoop_spec {S : Store σ α} [LinearOrder α] [Inhabited α]
    (LS : S.Lawful) (p n : Nat) (s₀ : σ)
    (H₀ : ∀ j : Nat, p < j → j < n → lOKS S n s₀ j) :
    ∀ (c : Nat) (u : σ), n = S.len u → Desc p c → c < n →
      (∀ j c' : Nat, Desc p j → j ≠ c → j < n → IsChild c' j → c' < n →
        S.get u j ≤ S.get u c') →
      (∀ j : Nat, Desc c j → j < n → S.get u j = S.get s₀ j) →
      (∀ j : Nat, j < n → ¬ Desc p j → S.get u j = S.get s₀ j) →
      (Desc p (siftupLoop S n c u).2 ∧ (siftupLoop S n c u).2 < n ∧
        ¬ (2 * (siftupLoop S n c u).2 + 1 < n)) ∧
      (∀ j c' : Nat, Desc p j → j < n → IsChild c' j → c' < n →
        S.get (siftupLoop S n c u).1 j ≤ S.get (siftupLoop S n c u).1 c') ∧
      (∀ j : Nat, j < n → ¬ Desc p j →
        S.get (siftupLoop S n c u).1 j = S.get s₀ j) ∧
      (∀ w : α, (S.values (S.set (siftupLoop S n c u).1
          (siftupLoop S n c u).2 w)).Perm (S.values (S.set u c w))) ∧
      Reach S u (siftupLoop S n c u).1 ∧
      n = S.len (siftupLoop S n c u).1 := by
  classical
  have hstep : ∀ (c : Nat) (u : σ) (ch : Nat), n = S.len u → Desc p c →
      c < n → ch < n → IsChild ch c →
      (∀ c'' : Nat, IsChild c'' c → c'' < n → S.get u ch ≤ S.get u c'') →
      (∀ j c' : Nat, Desc p j → j ≠ c → j < n → IsChild c' j → c' < n →
        S.get u j ≤ S.get u c') →
      (∀ j : Nat, Desc c j → j < n → S.get u j = S.get s₀ j) →
      (∀ j : Nat, j < n → ¬ Desc p j → S.get u j = S.get s₀ j) →
      (n = S.len (S.set u c (S.get u ch)) ∧ Desc p ch ∧ ch < n) ∧
      (∀ j c' : Nat, Desc p j → j ≠ ch → j < n → IsChild c' j → c' < n →
        S.get (S.set u c (S.get u ch)) j ≤ S.get (S.set u c (S.get u ch)) c') ∧
      (∀ j : Nat, Desc ch j → j < n →
        S.get (S.set u c (S.get u ch)) j = S.get s₀ j) ∧
      (∀ j : Nat, j < n → ¬ Desc p j →
        S.get (S.set u c (S.get u ch)) j = S.get s₀ j) := by
    intro c u ch hn hdc hcn hchn hch hsmall I1 I2 I3
    have hchc : c < ch := hch.lt
    have hget' : ∀ m : Nat, m < n →
        S.get (S.set u c (S.get u ch)) m =
          if m = c then S.get u ch else S.get u m := by
      intro m hm
      by_cases hmc : m = c
      · rw [hmc, if_pos rfl]
        exact LS.get_set_self u c _ (by omega)
      · rw [if_neg hmc]
        exact LS.get_set_ne u c _ m (by omega) (by omega) hmc
    refine ⟨⟨by rw [LS.len_set]; exact hn, desc_child hdc hch, hchn⟩,
      ?_, ?_, ?_⟩
    · intro j c' hdj hjch hjn hcj hc'n
      by_cases hjc : j = c
      · -- edges from c now hold via the smaller-child choice
        rw [hget' j hjn, hget' c' hc'n, if_pos hjc,
          if_neg (by have := hcj.lt; omega)]
        exact hsmall c' (hjc ▸ hcj) hc'n
      · by_cases hc'c : c' = c
        · -- the edge into c: source is c's parent
          have hcp : c ≠ p := by
            intro hc
            have := hdj.le
            have := hcj.lt
            omega
          rw [hget' j hjn, hget' c' hc'n, if_neg hjc, if_pos hc'c]
          have hjpar : S.get u j ≤ S.get u c := I1 j c hdj hjc hjn
            (hc'c ▸ hcj) (by omega)
          have hcch : S.get u c ≤ S.get u ch := by
            rw [I2 c (Desc.refl c) hcn, I2 ch (desc_child (Desc.refl c) hch) hchn]
            have hlok := H₀ c (by
              have := hdc.le
              omega) hcn
            rcases hch with he | he
            · exact he ▸ hlok.1 (by omega)
            · exact he ▸ hlok.2 (by omega)
          exact le_trans hjpar hcch
        · rw [hget' j hjn, hget' c' hc'n, if_neg hjc, if_neg hc'c]
          exact I1 j c' hdj hjc hjn hcj hc'n
    · intro j hdj hjn
      rw [hget' j hjn, if_neg (by have := hdj.le; omega)]
      exact I2 j (Desc.chain (desc_child (Desc.refl c) hch) hdj) hjn
    · intro j hjn hnd
      rw [hget' j hjn, if_neg (by
        intro hc
        exact hnd (hc ▸ hdc))]
      exact I3 j hjn hnd
  intro c u
  induction c, u using siftupLoop.induct S n with
  | case1 c u hguard hcond ih =>
    intro hn hdc hcn I1 I2 I3
    rw [siftupLoop, dif_pos hguard, dif_pos hcond]
    have hch : IsChild (2 * c + 2) c := .inr rfl
    have hsmall : ∀ c'' : Nat, IsChild c'' c → c'' < n →
        S.get u (2 * c + 2) ≤ S.get u c'' := by
      intro c'' hc'' hc''n
      rcases hc'' with he | he
      · rw [he]
        exact le_of_not_lt hcond.2
      · rw [he]
    obtain ⟨⟨hn', hdch, hchn⟩, I1', I2', I3'⟩ :=
      hstep c u (2 * c + 2) hn hdc hcn hcond.1 hch hsmall I1 I2 I3
    obtain ⟨o1, o2, o3, o4, o5, o6⟩ := ih hn' hdch hchn I1' I2' I3'
    refine ⟨o1, o2, o3, ?_, ?_, o6⟩
    · intro w
      refine (o4 w).trans ?_
      rw [values_set LS _ _ (by rw [LS.len_set]; omega) w,
        values_set LS u c (by omega) (S.get u (2 * c + 2)),
        values_set LS u c (by omega) w]
      rw [show S.get u (2 * c + 2)
          = (S.values u).getD (2 * c + 2) default from
        (values_getD S u _ (by omega) default).symm]
      exact set_chain_perm (S.values u) c (2 * c + 2) w
        (by rw [values_length]; omega) (by rw [values_length]; omega)
        (by omega)
    · exact (Reach.set_self (by omega)).trans o5
  | case2 c u hguard hcond ih =>
    intro hn hdc hcn I1 I2 I3
    rw [siftupLoop, dif_pos hguard, dif_neg hcond]
    have hch : IsChild (2 * c + 1) c := .inl rfl
    have hsmall : ∀ c'' : Nat, IsChild c'' c → c'' < n →
        S.get u (2 * c + 1) ≤ S.get u c'' := by
      intro c'' hc'' hc''n
      rcases hc'' with he | he
      · rw [he]
      · rw [he]
        push_neg at hcond
        exact le_of_lt (hcond (by omega))
    obtain ⟨⟨hn', hdch, hchn⟩, I1', I2', I3'⟩ :=
      hstep c u (2 * c + 1) hn hdc hcn (by omega) hch hsmall I1 I2 I3
    obtain ⟨o1, o2, o3, o4, o5, o6⟩ := ih hn' hdch hchn I1' I2' I3'
    refine ⟨o1, o2, o3, ?_, ?_, o6⟩
    · intro w
      refine (o4 w).trans ?_
      rw [values_set LS _ _ (by rw [LS.len_set]; omega) w,
        values_set LS u c (by omega) (S.get u (2 * c + 1)),
        values_set LS u c (by omega) w]
      rw [show S.get u (2 * c + 1)
          = (S.values u).getD (2 * c + 1) default from
        (values_getD S u _ (by omega) default).symm]
      exact set_chain_perm (S.values u) c (2 * c + 1) w
        (by rw [values_length]; omega) (by rw [values_length]; omega)
        (by omega)
    · exact (Reach.set_self (by omega)).trans o5
  | case3 c u hguard =>
    intro hn hdc hcn I1 I2 I3
    rw [siftupLoop, dif_neg hguard]
    refine ⟨⟨hdc, hcn, hguard⟩, ?_, I3, fun w => .refl _, .refl u, hn⟩
    intro j c' hdj hjn hcj hc'n
    by_cases hjc : j = c
    · rw [hjc] at hcj
      have := hcj.lt
      rcases hcj with he | he <;> omega
    · exact I1 j c' hdj hjc hjn hcj hc'n

theorem siftup_spec {S : Store σ α} [LinearOrder α] [Inhabited α]
    (LS : S.Lawful) (n : Nat) (s : σ) (p : Nat) (hn : n = S.len s)
    (hpn : p < n) (H₀ : ∀ j : Nat, p < j → j < n → lOKS S n s j) :
    (∀ j : Nat, p ≤ j → j < n → lOKS S n (siftup S s p) j) ∧
    (∀ j : Nat, j < n → ¬ Desc p j → S.get (siftup S s p) j = S.get s j) ∧
    (S.values (siftup S s p)).Perm (S.values s) ∧
    Reach S s (siftup S s p) ∧ n = S.len (siftup S s p) := by
  classical
  have hres : siftup S s p =
      siftdown S
        (S.set (siftupLoop S (S.len s) p s).1 (siftupLoop S (S.len s) p s).2
          (S.get s p))
        p (siftupLoop S (S.len s) p s).2 := rfl
  obtain ⟨⟨hdq, hqn, hleaf⟩, O2, O3, O4, O5, O6⟩ :=
    siftupLoop_spec LS p n s H₀ p s hn (Desc.refl p) hpn
      (fun j c' hdj hjp hjn hcj hc'n => by
        have hlok := H₀ j (by have := hdj.le; omega) hjn
        rcases hcj with he | he
        · exact he ▸ hlok.1 (by omega)
        · exact he ▸ hlok.2 (by omega))
      (fun j _ _ => rfl) (fun j _ _ => rfl)
  rw [← hn] at hres
  set u' := (siftupLoop S n p s).1 with hu'
  set q := (siftupLoop S n p s).2 with hq
  set w := S.get s p with hwdef
  set s₂ := S.set u' q w with hs₂
  have hlen2 : n = S.len s₂ := by rw [hs₂, LS.len_set]; exact O6
  have hw : S.get s₂ q = w := by
    rw [hs₂]
    exact LS.get_set_self u' q w (by omega)
  have hget2 : ∀ m : Nat, m < n → m ≠ q → S.get s₂ m = S.get u' m := by
    intro m hm hmq
    rw [hs₂]
    exact LS.get_set_ne u' q w m (by omega) (by omega) hmq
  have hres2 : siftup S s p =
      S.set (siftdownLoop S w p q s₂).1 (siftdownLoop S w p q s₂).2 w := by
    rw [hres]
    show S.set (siftdownLoop S (S.get s₂ q) p q s₂).1
        (siftdownLoop S (S.get s₂ q) p q s₂).2 (S.get s₂ q) = _
    rw [hw]
  obtain ⟨D1, D2, D3, D4⟩ := siftdownLoop_spec LS w p n q s₂ hlen2 hdq hqn
    (by
      intro j c hdj hjn hcj hcn hcq
      by_cases hjq : j = q
      · exact absurd (by rcases hcj with he | he <;> omega : 2 * j + 1 < n)
          (hjq ▸ hleaf)
      · rw [hget2 j hjn hjq, hget2 c hcn hcq]
        exact O2 j c hdj hjn hcj hcn)
    (fun c hc hcn => absurd (by rcases hc with he | he <;> omega) hleaf)
    (fun c _ hc hcn => absurd (by rcases hc with he | he <;> omega) hleaf)
  rw [hres2]
  have hfin_untouched : ∀ j : Nat, j < n → ¬ Desc p j →
      S.get (S.set (siftdownLoop S w p q s₂).1
        (siftdownLoop S w p q s₂).2 w) j = S.get s j := by
    intro j hjn hnd
    rw [D2 j hjn hnd, hget2 j hjn (by
      intro hc
      exact hnd (hc ▸ hdq))]
    exact O3 j hjn hnd
  refine ⟨?_, hfin_untouched, ?_, ?_, ?_⟩
  · intro j hpj hjn
    by_cases hdj : Desc p j
    · exact ⟨fun hc => D1 j _ hdj hjn (.inl rfl) hc,
        fun hc => D1 j _ hdj hjn (.inr rfl) hc⟩
    · have hj1 : ¬ Desc p (2 * j + 1) := not_desc_child hpj hdj (.inl rfl)
      have hj2 : ¬ Desc p (2 * j + 2) := not_desc_child hpj hdj (.inr rfl)
      have hjp : p < j := by
        rcases Nat.lt_or_ge p j with h | h
        · exact h
        · have : j = p := by omega
          exact absurd (this ▸ Desc.refl p) hdj
      have hlok := H₀ j hjp hjn
      constructor
      · intro hc
        rw [hfin_untouched j hjn hdj, hfin_untouched _ hc hj1]
        exact hlok.1 hc
      · intro hc
        rw [hfin_untouched j hjn hdj, hfin_untouched _ hc hj2]
        exact hlok.2 hc
  · refine D3.trans ?_
    have e1 : S.values (S.set s₂ q w) = S.values s₂ := by
      rw [values_set LS s₂ q (by omega) w, hs₂,
        values_set LS u' q (by omega) w, List.set_set]
    rw [e1, hs₂]
    refine (O4 w).trans ?_
    rw [hwdef, values_set LS s p (by omega) (S.get s p),
      ← values_getD S s p (by omega) default, list_set_getD_self]
  · refine O5.trans ?_
    have hstep2 : Reach S u' s₂ := by
      rw [hs₂]
      exact Reach.set_self (by omega)
    exact hstep2.trans D4
  · rw [Reach.len_eq LS D4]
    exact hlen2

theorem heapify_fold_spec {S : Store σ α} [LinearOrder α] [Inhabited α]
    (LS : S.Lawful) (n : Nat) :
    ∀ (m : Nat) (s : σ), n = S.len s → m ≤ n →
      (∀ j : Nat, m ≤ j → j < n → lOKS S n s j) →
      (∀ j : Nat, j < n →
        lOKS S n ((List.range m).reverse.foldl (fun t i => siftup S t i) s) j) ∧
      (S.values ((List.range m).reverse.foldl (fun t i => siftup S t i) s)).Perm
        (S.values s) ∧
      Reach S s ((List.range m).reverse.foldl (fun t i => siftup S t i) s) ∧
      n = S.len ((List.range m).reverse.foldl (fun t i => siftup S t i) s) := by
  intro m
  induction m with
  | zero =>
    intro s hn _ hinv
    exact ⟨fun j hj => hinv j (by omega) hj, .refl _, .refl s, hn⟩
  | succ m ih =>
    intro s hn hm hinv
    have hrw : (List.range (m + 1)).reverse = m :: (List.range m).reverse := by
      rw [List.range_succ, List.reverse_append]
      rfl
    rw [hrw]
    show _ ∧ (S.values ((List.range m).reverse.foldl (fun t i => siftup S t i)
      (siftup S s m))).Perm (S.values s) ∧ _
    obtain ⟨P1, P2, P3, P4, P5⟩ := siftup_spec LS n s m hn (by omega)
      (fun j hj hjn => hinv j (by omega) hjn)
    obtain ⟨Q1, Q2, Q3, Q4⟩ := ih (siftup S s m) P5 (by omega)
      (fun j hj hjn => P1 j (by omega) hjn)
    exact ⟨Q1, Q2.trans P3, P4.trans Q3, Q4⟩

theorem heapifyStore_spec {S : Store σ α} [LinearOrder α] [Inhabited α]
    (LS : S.Lawful) (s : σ) :
    (∀ j : Nat, j < S.len s → lOKS S (S.len s) (heapifyStore S s) j) ∧
    (S.values (heapifyStore S s)).Perm (S.values s) ∧
    Reach S s (heapifyStore S s) ∧ S.len (heapifyStore S s) = S.len s := by
  have h := heapify_fold_spec LS (S.len s) (S.len s / 2) s rfl (by omega)
    (by
      intro j hj hjn
      exact ⟨fun hc => absurd hc (by omega), fun hc => absurd hc (by omega)⟩)
  exact ⟨h.1, h.2.1, h.2.2.1, h.2.2.2.symm⟩

theorem heap_root_min {S : Store σ α} [LinearOrder α] (n : Nat) (s : σ)
    (h : ∀ j : Nat, j < n → lOKS S n s j) :
    ∀ j : Nat, j < n → S.get s 0 ≤ S.get s j := by
  intro j
  induction j using Nat.strong_induction_on with
  | _ j ih =>
    intro hj
    match j with
    | 0 => exact le_rfl
    | j' + 1 =>
      have hchild : IsChild (j' + 1) (j' / 2) := by
        unfold IsChild
        omega
      have h1 := h (j' / 2) (by omega)
      have h2 : S.get s (j' / 2) ≤ S.get s (j' + 1) := by
        rcases hchild with he | he
        · have := h1.1 (by omega)
          rwa [← he] at this
        · have := h1.2 (by omega)
          rwa [← he] at this
      exact le_trans (ih (j' / 2) (by omega) (by omega)) h2

theorem heappushpop_spec {S : Store σ α} [LinearOrder α] [Inhabited α]
    (LS : S.Lawful) (s : σ) (item : α)
    (hinv : ∀ j : Nat, j < S.len s → lOKS S (S.len s) s j) :
    (∀ j : Nat, j < S.len s →
      lOKS S (S.len s) (heappushpop S s item).2 j) ∧
    ((heappushpop S s item).1 =
      if 0 < S.len s ∧ S.get s 0 < item then S.get s 0 else item) ∧
    (if 0 < S.len s ∧ S.get s 0 < item then
      (S.values (heappushpop S s item).2).Perm ((S.values s).set 0 item)
     else (heappushpop S s item).2 = s) ∧
    Reach S s (heappushpop S s item).2 ∧
    S.len (heappushpop S s item).2 = S.len s := by
  by_cases hc : 0 < S.len s ∧ S.get s 0 < item
  · have hres : heappushpop S s item
        = (S.get s 0, siftup S (S.set s 0 item) 0) := by
      unfold heappushpop
      rw [if_pos hc]
    have hlen1 : S.len (S.set s 0 item) = S.len s := LS.len_set s 0 item
    have H₀ : ∀ j : Nat, 0 < j → j < S.len s →
        lOKS S (S.len s) (S.set s 0 item) j := by
      intro j hj hjn
      have hg : ∀ m : Nat, 0 < m → m < S.len s →
          S.get (S.set s 0 item) m = S.get s m := by
        intro m hm hmn
        exact LS.get_set_ne s 0 item m (by omega) (by omega) (by omega)
      obtain ⟨l1, l2⟩ := hinv j hjn
      constructor
      · intro hcc
        rw [hg j (by omega) hjn, hg _ (by omega) hcc]
        exact l1 hcc
      · intro hcc
        rw [hg j (by omega) hjn, hg _ (by omega) hcc]
        exact l2 hcc
    obtain ⟨P1, P2, P3, P4, P5⟩ := siftup_spec LS (S.len s) (S.set s 0 item)
      0 hlen1.symm (by omega) H₀
    rw [hres]
    refine ⟨fun j hj => P1 j (by omega) hj, by rw [if_pos hc], ?_, ?_, ?_⟩
    · rw [if_pos hc]
      refine P3.trans ?_
      rw [values_set LS s 0 (by omega) item]
    · exact (Reach.set_self (by omega)).trans P4
    · rw [← P5]
  · have hres : heappushpop S s item = (item, s) := by
      unfold heappushpop
      rw [if_neg hc]
    rw [hres]
    exact ⟨hinv, by rw [if_neg hc], by rw [if_neg hc], .refl s, rfl⟩

/-- C10 (confirmed): on a plain mutable sequence, `heapify` establishes the
binary min-heap invariant; on a sequence `y` already satisfying it,
`heappushpop y item` preserves the invariant, returns the smaller of `item`
and the previous heap minimum (the root, which the fourth conjunct proves to
be the minimum), and leaves `y` unmodified returning `item` itself when `y`
is empty or its root is not less than `item`. -/
theorem C10_heapify_and_heappushpop [LinearOrder α] [Inhabited α]
    (x y : List α) (item : α) (hy : heapInv y) :
    heapInv (heapifyStore (listStore α) x) ∧
    heapInv (heappushpop (listStore α) y item).2 ∧
    (0 < y.length →
      (heappushpop (listStore α) y item).1 = min item (y.getD 0 default)) ∧
    (∀ j : Nat, j < y.length → y.getD 0 default ≤ y.getD j default) ∧
    ((y.length = 0 ∨ ¬ y.getD 0 default < item) →
      heappushpop (listStore α) y item = (item, y)) := by
  have LS := lawful_listStore α
  have hyS : ∀ j : Nat, j < (listStore α).len y →
      lOKS (listStore α) ((listStore α).len y) y j := hy
  obtain ⟨H1, H2, H3, H4, H5⟩ := heappushpop_spec LS y item hyS
  obtain ⟨G1, G2, G3, G4⟩ := heapifyStore_spec LS x
  have G4' : (heapifyStore (listStore α) x).length = x.length := G4
  have H5' : (heappushpop (listStore α) y item).2.length = y.length := H5
  refine ⟨?_, ?_, ?_, ?_, ?_⟩
  · intro j hj
    rw [G4'] at hj
    have := G1 j hj
    constructor
    · intro hcc
      rw [G4'] at hcc
      exact this.1 hcc
    · intro hcc
      rw [G4'] at hcc
      exact this.2 hcc
  · intro j hj
    rw [H5'] at hj
    have := H1 j hj
    constructor
    · intro hcc
      rw [H5'] at hcc
      exact this.1 hcc
    · intro hcc
      rw [H5'] at hcc
      exact this.2 hcc
  · intro hlen
    rw [H2]
    by_cases hc : 0 < (listStore α).len y ∧ (listStore α).get y 0 < item
    · rw [if_pos hc]
      exact (min_eq_right (le_of_lt hc.2)).symm
    · rw [if_neg hc]
      have : ¬ (listStore α).get y 0 < item := fun hcc => hc ⟨hlen, hcc⟩
      exact (min_eq_left (le_of_not_lt this)).symm
  · exact heap_root_min ((listStore α).len y) y hyS
  · intro hcase
    have hc : ¬ (0 < (listStore α).len y ∧ (listStore α).get y 0 < item) := by
      rcases hcase with h0 | hnl
      · intro hcc
        rw [show (listStore α).len y = y.length from rfl] at hcc
        omega
      · exact fun hcc => hnl hcc.2
    unfold heappushpop
    rw [if_neg hc]

/-- Witness for C10: heapify of `[5,3,8,1,9,2]` yields a min-heap, and
`heappushpop` on the heap `[1,3,2,5,9,8]` with `4` returns the old minimum
`1` while preserving the invariant. -/
theorem C10_heapify_and_heappushpop_witness :
    heapInv (heapifyStore (listStore Int) [5, 3, 8, 1, 9, 2]) ∧
    heapInv (heappushpop (listStore Int) [1, 3, 2, 5, 9, 8] 4).2 ∧
    (heappushpop (listStore Int) [1, 3, 2, 5, 9, 8] 4).1 = 1 := by
  have h := C10_heapify_and_heappushpop [5, 3, 8, 1, 9, 2]
    ([1, 3, 2, 5, 9, 8] : List Int) 4 (by decide)
  refine ⟨h.1, h.2.1, ?_⟩
  have he := h.2.2.1 (by decide)
  rw [he]
  decide

theorem cross_set_perm [DecidableEq α] [Inhabited α] (a b : List α) (m : Nat)
    (hm : m < a.length) (hb : 0 < b.length) :
    ((a.set m (b.getD 0 default)) ++ (b.set 0 (a.getD m default))).Perm
      (a ++ b) := by
  have h1 : (a ++ b).getD a.length default = b.getD 0 default := by
    rw [List.getD_append_right a b default a.length le_rfl, Nat.sub_self]
  have h2 : (a ++ b).getD m default = a.getD m default :=
    List.getD_append a b default m hm
  have hswap := swap_perm (a ++ b) m a.length
    (by rw [List.length_append]; omega) (by rw [List.length_append]; omega)
    (by omega) default
  rw [h1, h2] at hswap
  have e1 : (a ++ b).set m (b.getD 0 default)
      = a.set m (b.getD 0 default) ++ b := by
    rw [List.set_append, if_pos hm]
  have e2 : (a.set m (b.getD 0 default) ++ b).set a.length
        (a.getD m default)
      = a.set m (b.getD 0 default) ++ b.set 0 (a.getD m default) := by
    rw [List.set_append, if_neg (by rw [List.length_set]; omega),
      List.length_set, Nat.sub_self]
  rw [e1, e2] at hswap
  exact hswap

theorem vStore_get_reach_other [Inhabited α] {tx ty : List Int} {L : Nat}
    (hokx : TransOK tx L) (hoky : TransOK ty L)
    (hdisj : ∀ kx : Nat, kx < tx.length → ∀ ky : Nat, ky < ty.length →
      tx.getD kx 0 ≠ ty.getD ky 0)
    {s s' : {xs : List α // xs.length = L}}
    (h : Reach (vStore α ty L) s s') (k : Nat) (hk : k < tx.length) :
    (vStore α tx L).get s' k = (vStore α tx L).get s k := by
  rw [vStore_get hokx s' k hk, vStore_get hokx s k hk]
  refine Reach.vStore_untouched hoky h _ ?_ default
  intro ky hky hc
  have h1 := (hokx.1 k hk).1
  have h2 := (hoky.1 ky hky).1
  have := hdisj k hk ky hky
  omega

theorem vStore_values_reach_other [Inhabited α] {tx ty : List Int} {L : Nat}
    (hokx : TransOK tx L) (hoky : TransOK ty L)
    (hdisj : ∀ kx : Nat, kx < tx.length → ∀ ky : Nat, ky < ty.length →
      tx.getD kx 0 ≠ ty.getD ky 0)
    {s s' : {xs : List α // xs.length = L}}
    (h : Reach (vStore α ty L) s s') :
    (vStore α tx L).values s' = (vStore α tx L).values s := by
  unfold Store.values
  rw [show (vStore α tx L).len s' = tx.length from rfl,
    show (vStore α tx L).len s = tx.length from rfl]
  apply List.map_congr_left
  intro k hk
  exact vStore_get_reach_other hokx hoky hdisj h k (List.mem_range.mp hk)

theorem psLoop_spec [Inhabited α] [LinearOrder α] {tx ty : List Int} {L : Nat}
    (hokx : TransOK tx L) (hoky : TransOK ty L)
    (hdisj : ∀ kx : Nat, kx < tx.length → ∀ ky : Nat, ky < ty.length →
      tx.getD kx 0 ≠ ty.getD ky 0)
    (hny : 0 < ty.length) :
    ∀ (c m : Nat) (s : {xs : List α // xs.length = L}), m + c ≤ tx.length →
      (∀ j : Nat, j < ty.length →
        lOKS (vStore α ty L) ty.length s j) →
      (∀ a : Nat, a < m → ∀ j : Nat, j < ty.length →
        (vStore α tx L).get s a ≤ (vStore α ty L).get s j) →
      ∃ s' : {xs : List α // xs.length = L},
        partial_sortLoop (vStore α tx L) (vStore α ty L)
          (List.range' m c) s = .ok s' ∧
        (∀ j : Nat, j < ty.length →
          lOKS (vStore α ty L) ty.length s' j) ∧
        (∀ a : Nat, a < m + c → ∀ j : Nat, j < ty.length →
          (vStore α tx L).get s' a ≤ (vStore α ty L).get s' j) ∧
        (((vStore α tx L).values s' ++ (vStore α ty L).values s').Perm
          ((vStore α tx L).values s ++ (vStore α ty L).values s)) := by
  classical
  have LSx := lawful_vStore (α := α) hokx
  have LSy := lawful_vStore (α := α) hoky
  have hdisj' : ∀ ky : Nat, ky < ty.length → ∀ kx : Nat, kx < tx.length →
      ty.getD ky 0 ≠ tx.getD kx 0 :=
    fun ky hky kx hkx => (hdisj kx hkx ky hky).symm
  intro c
  induction c with
  | zero =>
    intro m s _ hheap hproc
    refine ⟨s, rfl, hheap, ?_, .refl _⟩
    intro a ha
    exact hproc a (by omega)
  | succ c ih =>
    intro m s hmc hheap hproc
    have hm : m < tx.length := by omega
    rw [List.range'_succ]
    have hroot : ∀ j : Nat, j < ty.length →
        (vStore α ty L).get s 0 ≤ (vStore α ty L).get s j :=
      heap_root_min ty.length s hheap
    by_cases hyc : (vStore α ty L).get s 0 < (vStore α tx L).get s m
    · -- exchange branch
      rw [partial_sortLoop, if_pos (by exact hny), if_pos hyc]
      set xi := (vStore α tx L).get s m with hxi
      set r := heappushpop (vStore α ty L) s xi with hr
      obtain ⟨H1, H2, H3, H4, H5⟩ := heappushpop_spec LSy s xi hheap
      rw [if_pos ⟨hny, hyc⟩] at H2 H3
      set s'' := (vStore α tx L).set r.2 m r.1 with hs''
      have hreachx : Reach (vStore α tx L) r.2 s'' :=
        Reach.set_self (by exact hm)
      have f1 : ∀ k : Nat, k < tx.length →
          (vStore α tx L).get r.2 k = (vStore α tx L).get s k :=
        fun k hk => vStore_get_reach_other hokx hoky hdisj H4 k hk
      have g1 : ∀ j : Nat, j < ty.length →
          (vStore α ty L).get s'' j = (vStore α ty L).get r.2 j :=
        fun j hj => vStore_get_reach_other hoky hokx hdisj' hreachx j hj
      have g2 : (vStore α ty L).values s'' = (vStore α ty L).values r.2 :=
        vStore_values_reach_other hoky hokx hdisj' hreachx
      have g3 : (vStore α tx L).get s'' m = (vStore α ty L).get s 0 := by
        rw [hs'', H2]
        exact LSx.get_set_self r.2 m _ (by exact hm)
      have g3' : ∀ a : Nat, a < tx.length → a ≠ m →
          (vStore α tx L).get s'' a = (vStore α tx L).get s a := by
        intro a ha hne
        rw [hs'', LSx.get_set_ne r.2 m _ a (by exact hm) (by exact ha) hne]
        exact f1 a ha
      have g4 : (vStore α tx L).values s''
          = ((vStore α tx L).values s).set m ((vStore α ty L).get s 0) := by
        rw [hs'', H2, values_set LSx r.2 m (by exact hm),
          vStore_values_reach_other hokx hoky hdisj H4]
      have hymem : ∀ j : Nat, j < ty.length →
          ((vStore α ty L).get r.2 j = xi ∨
            ∃ j' : Nat, j' < ty.length ∧
              (vStore α ty L).get r.2 j = (vStore α ty L).get s j') := by
        intro j hj
        have hjv : (vStore α ty L).get r.2 j ∈ (vStore α ty L).values r.2 := by
          rw [List.mem_iff_getElem]
          refine ⟨j, by rw [values_length]; exact hj, ?_⟩
          simp [Store.values]
        have := H3.mem_iff.mp hjv
        rcases List.mem_or_eq_of_mem_set this with hmem | heq
        · rw [List.mem_iff_getElem] at hmem
          obtain ⟨j', hj', he⟩ := hmem
          rw [values_length] at hj'
          right
          refine ⟨j', hj', ?_⟩
          rw [← he]
          simp [Store.values]
        · left
          exact heq
      have hheap'' : ∀ j : Nat, j < ty.length →
          lOKS (vStore α ty L) ty.length s'' j := by
        intro j hj
        obtain ⟨l1, l2⟩ := H1 j hj
        constructor
        · intro hcc
          rw [g1 j hj, g1 _ hcc]
          exact l1 hcc
        · intro hcc
          rw [g1 j hj, g1 _ hcc]
          exact l2 hcc
      have hproc'' : ∀ a : Nat, a < m + 1 → ∀ j : Nat, j < ty.length →
          (vStore α tx L).get s'' a ≤ (vStore α ty L).get s'' j := by
        intro a ha j hj
        rw [g1 j hj]
        have hbase : ∀ v : α,
            ((vStore α ty L).get r.2 j = xi ∨
              ∃ j' : Nat, j' < ty.length ∧
                (vStore α ty L).get r.2 j = (vStore α ty L).get s j') →
            v ≤ (vStore α ty L).get s 0 →
            v ≤ (vStore α ty L).get r.2 j := by
          intro v hcase hv
          rcases hcase with he | ⟨j', hj', he⟩
          · rw [he]
            exact le_trans hv (le_of_lt hyc)
          · rw [he]
            exact le_trans hv (hroot j' hj')
        by_cases ham : a = m
        · rw [ham, g3]
          exact hbase _ (hymem j hj) le_rfl
        · rw [g3' a (by omega) ham]
          exact hbase _ (hymem j hj) (hproc a (by omega) 0 hny)
      obtain ⟨s', hs', R1, R2, R3⟩ := ih (m + 1) s'' (by omega) hheap'' hproc''
      refine ⟨s', hs', R1, ?_, ?_⟩
      · intro a ha
        exact R2 a (by omega)
      · refine R3.trans ?_
        rw [g4, g2]
        have hstep : (((vStore α tx L).values s).set m
              ((vStore α ty L).get s 0) ++ (vStore α ty L).values r.2).Perm
            ((((vStore α tx L).values s).set m ((vStore α ty L).get s 0)) ++
              (((vStore α ty L).values s).set 0 xi)) :=
          List.Perm.append_left _ H3
        refine hstep.trans ?_
        have hy0 : (vStore α ty L).get s 0
            = ((vStore α ty L).values s).getD 0 default :=
          (values_getD _ s 0 (by exact hny) default).symm
        have hxm : xi = ((vStore α tx L).values s).getD m default := by
          rw [hxi]
          exact (values_getD _ s m (by exact hm) default).symm
        rw [hy0, hxm]
        exact cross_set_perm _ _ m (by rw [values_length]; exact hm)
          (by rw [values_length]; exact hny)
    · -- no exchange
      rw [partial_sortLoop, if_pos (by exact hny), if_neg hyc]
      have hproc' : ∀ a : Nat, a < m + 1 → ∀ j : Nat, j < ty.length →
          (vStore α tx L).get s a ≤ (vStore α ty L).get s j := by
        intro a ha j hj
        by_cases ham : a = m
        · rw [ham]
          exact le_trans (le_of_not_lt hyc) (hroot j hj)
        · exact hproc a (by omega) j hj
      obtain ⟨s', hs', R1, R2, R3⟩ := ih (m + 1) s (by omega) hheap hproc'
      refine ⟨s', hs', R1, ?_, R3⟩
      intro a ha
      exact R2 a (by omega)

theorem gatherList_eq_values [Inhabited α] (v : Aligned) {L : Nat}
    (hok : TransOK (tList v) L) (s : {xs : List α // xs.length = L}) :
    gatherList v s.1 = (vStore α (tList v) L).values s := by
  unfold gatherList Store.values
  rw [show (vStore α (tList v) L).len s = (tList v).length from rfl,
    tList_length]
  apply List.map_congr_left
  intro k hk
  have hkr := List.mem_range.mp hk
  rw [vStore_get hok s k (by rw [tList_length]; exact hkr),
    tList_getD v k hkr]

theorem gatherList_length [Inhabited α] (v : Aligned) (x : List α) :
    (gatherList v x).length = v.n.toNat := by
  unfold gatherList
  rw [List.length_map, List.length_range]

/-- C7 counterexample: `partial_sort` on a nonempty front view and an empty
back view raises `IndexError` (the unguarded `y[0]` read), leaving the front
unsorted, instead of rearranging as the claim requires. -/
theorem C7_empty_back_counterexample :
    listagentPartialSort (align sliceNone 2) (align ⟨some 2, some 2, none⟩ 2)
        ([3, 1] : List Int)
      = .error .indexError ∧
    (align ⟨some 2, some 2, none⟩ 2).n = 0 ∧
    (align sliceNone 2).n = 2 := by
  refine ⟨?_, by decide, by decide⟩
  decide

/-- C7 (amended): for disjoint consistently aligned views `front = vx` and
`back = vy` over one origin, provided the back view is nonempty (or the
front is empty), `partial_sort` succeeds and afterwards the front holds,
in ascending order, exactly the `nx` smallest elements of the union of the
two views — it equals the first `nx` elements of the sorted union — while
the back holds the remaining elements in some order and the union multiset
is preserved.  When the front is nonempty but the back is empty the call
instead raises `IndexError` (the unguarded `y[0]` read); see the
counterexample theorem. -/
theorem C7_partial_sort_selects_k_smallest [Inhabited α] [LinearOrder α]
    (vx vy : Aligned) (x : List α)
    (hcx : vx.Consistent x.length) (hcy : vy.Consistent x.length)
    (hdisj : ∀ kx : Nat, kx < vx.n.toNat → ∀ ky : Nat, ky < vy.n.toNat →
      vx.translate (kx : Int) ≠ vy.translate (ky : Int))
    (hne : 0 < vy.n.toNat ∨ vx.n.toNat = 0) :
    ∃ x' : List α, listagentPartialSort vx vy x = .ok x' ∧
      x'.length = x.length ∧
      List.Pairwise (· ≤ ·) (gatherList vx x') ∧
      (∀ a ∈ gatherList vx x', ∀ b ∈ gatherList vy x', a ≤ b) ∧
      ((gatherList vx x' ++ gatherList vy x').Perm
        (gatherList vx x ++ gatherList vy x)) ∧
      gatherList vx x' =
        ((gatherList vx x ++ gatherList vy x).mergeSort
          (fun a b => decide (a ≤ b))).take vx.n.toNat := by
  classical
  have hokx := transOK_tList vx x.length hcx
  have hoky := transOK_tList vy x.length hcy
  have hdisj' : ∀ kx : Nat, kx < (tList vx).length →
      ∀ ky : Nat, ky < (tList vy).length →
      (tList vx).getD kx 0 ≠ (tList vy).getD ky 0 := by
    intro kx hkx ky hky
    rw [tList_length] at hkx hky
    rw [tList_getD vx kx hkx, tList_getD vy ky hky]
    exact hdisj kx hkx ky hky
  have hdisjYX : ∀ ky : Nat, ky < (tList vy).length →
      ∀ kx : Nat, kx < (tList vx).length →
      (tList vy).getD ky 0 ≠ (tList vx).getD kx 0 :=
    fun ky hky kx hkx => (hdisj' kx hkx ky hky).symm
  have LSx := lawful_vStore (α := α) hokx
  have LSy := lawful_vStore (α := α) hoky
  obtain ⟨Hheap0, HpermY, Hreach0, _⟩ :=
    heapifyStore_spec LSy (⟨x, rfl⟩ : {xs : List α // xs.length = x.length})
  obtain ⟨s2, hloop, Hcross2, Hperm2⟩ :
      ∃ s2 : {xs : List α // xs.length = x.length},
        partial_sortLoop (vStore α (tList vx) x.length)
          (vStore α (tList vy) x.length)
          (List.range ((vStore α (tList vx) x.length).len
            (⟨x, rfl⟩ : {xs : List α // xs.length = x.length})))
          (heapifyStore (vStore α (tList vy) x.length) ⟨x, rfl⟩) = .ok s2 ∧
        (∀ a : Nat, a < (tList vx).length → ∀ j : Nat, j < (tList vy).length →
          (vStore α (tList vx) x.length).get s2 a ≤
            (vStore α (tList vy) x.length).get s2 j) ∧
        (((vStore α (tList vx) x.length).values s2 ++
            (vStore α (tList vy) x.length).values s2).Perm
          ((vStore α (tList vx) x.length).values
              (heapifyStore (vStore α (tList vy) x.length) ⟨x, rfl⟩) ++
            (vStore α (tList vy) x.length).values
              (heapifyStore (vStore α (tList vy) x.length) ⟨x, rfl⟩))) := by
    rcases Nat.eq_zero_or_pos (tList vy).length with hty | hty
    · have htx : (tList vx).length = 0 := by
        rw [tList_length]
        rcases hne with h | h
        · rw [tList_length] at hty; omega
        · exact h
      refine ⟨heapifyStore (vStore α (tList vy) x.length) ⟨x, rfl⟩, ?_,
        fun a ha => absurd ha (by omega), List.Perm.refl _⟩
      rw [show (vStore α (tList vx) x.length).len
          (⟨x, rfl⟩ : {xs : List α // xs.length = x.length})
          = (tList vx).length from rfl, htx, List.range_zero]
      rfl
    · obtain ⟨s2, h1, _h2, h3, h4⟩ := psLoop_spec hokx hoky hdisj' hty
        (tList vx).length 0
        (heapifyStore (vStore α (tList vy) x.length) ⟨x, rfl⟩)
        (by omega) (fun j hj => Hheap0 j hj)
        (fun a ha => absurd ha (Nat.not_lt_zero a))
      refine ⟨s2, ?_, fun a ha j hj => h3 a (by omega) j hj, h4⟩
      rw [show (vStore α (tList vx) x.length).len
          (⟨x, rfl⟩ : {xs : List α // xs.length = x.length})
          = (tList vx).length from rfl, List.range_eq_range']
      exact h1
  have hps : partial_sort (vStore α (tList vx) x.length)
      (vStore α (tList vy) x.length) ⟨x, rfl⟩
      = .ok (sortStore (vStore α (tList vx) x.length) s2) := by
    unfold partial_sort
    rw [hloop]
  have hreach3 : Reach (vStore α (tList vx) x.length) s2
      (sortStore (vStore α (tList vx) x.length) s2) := reach_sortStore LSx s2
  have hBy3 : (vStore α (tList vy) x.length).values
        (sortStore (vStore α (tList vx) x.length) s2)
      = (vStore α (tList vy) x.length).values s2 :=
    vStore_values_reach_other hoky hokx hdisjYX hreach3
  have hFx3 : ((vStore α (tList vx) x.length).values
        (sortStore (vStore α (tList vx) x.length) s2)).Perm
      ((vStore α (tList vx) x.length).values s2) := values_sortStore LSx s2
  have hFx1 : (vStore α (tList vx) x.length).values
        (heapifyStore (vStore α (tList vy) x.length) ⟨x, rfl⟩)
      = (vStore α (tList vx) x.length).values ⟨x, rfl⟩ :=
    vStore_values_reach_other hokx hoky hdisj' Hreach0
  have hg3x : gatherList vx (sortStore (vStore α (tList vx) x.length) s2).1
      = (vStore α (tList vx) x.length).values
        (sortStore (vStore α (tList vx) x.length) s2) :=
    gatherList_eq_values vx hokx _
  have hg3y : gatherList vy (sortStore (vStore α (tList vx) x.length) s2).1
      = (vStore α (tList vy) x.length).values
        (sortStore (vStore α (tList vx) x.length) s2) :=
    gatherList_eq_values vy hoky _
  have hg0x : gatherList vx x
      = (vStore α (tList vx) x.length).values ⟨x, rfl⟩ :=
    gatherList_eq_values vx hokx ⟨x, rfl⟩
  have hg0y : gatherList vy x
      = (vStore α (tList vy) x.length).values ⟨x, rfl⟩ :=
    gatherList_eq_values vy hoky ⟨x, rfl⟩
  have hsorted : List.Pairwise (· ≤ ·)
      (gatherList vx (sortStore (vStore α (tList vx) x.length) s2).1) := by
    rw [hg3x]
    unfold Store.values
    rw [List.pairwise_iff_getElem]
    intro i j hi hj hij
    simp only [List.length_map, List.length_range] at hi hj
    simp only [List.getElem_map, List.getElem_range]
    exact sortStore_sorted LSx s2 i j hij hj
  have hcross : ∀ a ∈ gatherList vx
        (sortStore (vStore α (tList vx) x.length) s2).1,
      ∀ b ∈ gatherList vy (sortStore (vStore α (tList vx) x.length) s2).1,
      a ≤ b := by
    intro a ha b hb
    rw [hg3x] at ha
    rw [hg3y, hBy3] at hb
    have ha2 : a ∈ (vStore α (tList vx) x.length).values s2 :=
      hFx3.mem_iff.mp ha
    unfold Store.values at ha2 hb
    obtain ⟨ka, hka, hae⟩ := List.mem_map.mp ha2
    obtain ⟨kb, hkb, hbe⟩ := List.mem_map.mp hb
    rw [← hae, ← hbe]
    exact Hcross2 ka (List.mem_range.mp hka) kb (List.mem_range.mp hkb)
  have hperm : ((gatherList vx
          (sortStore (vStore α (tList vx) x.length) s2).1 ++
        gatherList vy (sortStore (vStore α (tList vx) x.length) s2).1).Perm
      (gatherList vx x ++ gatherList vy x)) := by
    rw [hg3x, hg3y, hg0x, hg0y, hBy3]
    refine ((hFx3.append_right _).trans Hperm2).trans ?_
    rw [hFx1]
    exact List.Perm.append_left _ HpermY
  have letrans : ∀ a b c : α, (fun a b : α => decide (a ≤ b)) a b = true →
      (fun a b : α => decide (a ≤ b)) b c = true →
      (fun a b : α => decide (a ≤ b)) a c = true :=
    fun a b c h1 h2 =>
      decide_eq_true (le_trans (of_decide_eq_true h1) (of_decide_eq_true h2))
  have letotal : ∀ a b : α, ((fun a b : α => decide (a ≤ b)) a b ||
      (fun a b : α => decide (a ≤ b)) b a) = true :=
    fun a b => by rcases le_total a b with h | h <;> simp [h]
  have htake : gatherList vx (sortStore (vStore α (tList vx) x.length) s2).1
      = ((gatherList vx x ++ gatherList vy x).mergeSort
          (fun a b => decide (a ≤ b))).take vx.n.toNat := by
    have hsortW : List.Pairwise (· ≤ ·)
        (gatherList vx (sortStore (vStore α (tList vx) x.length) s2).1 ++
          (gatherList vy
            (sortStore (vStore α (tList vx) x.length) s2).1).mergeSort
            (fun a b => decide (a ≤ b))) := by
      rw [List.pairwise_append]
      refine ⟨hsorted, ?_, ?_⟩
      · exact (List.sorted_mergeSort letrans letotal _).imp
          (fun h => of_decide_eq_true h)
      · intro a ha b hb
        exact hcross a ha b (List.mem_mergeSort.mp hb)
    have hsortU : List.Pairwise (· ≤ ·)
        ((gatherList vx x ++ gatherList vy x).mergeSort
          (fun a b => decide (a ≤ b))) :=
      (List.sorted_mergeSort letrans letotal _).imp
        (fun h => of_decide_eq_true h)
    have hpermWU : ((gatherList vx
            (sortStore (vStore α (tList vx) x.length) s2).1 ++
          (gatherList vy
            (sortStore (vStore α (tList vx) x.length) s2).1).mergeSort
            (fun a b => decide (a ≤ b))).Perm
        ((gatherList vx x ++ gatherList vy x).mergeSort
          (fun a b => decide (a ≤ b)))) :=
      ((List.Perm.append_left _ (List.mergeSort_perm _ _)).trans hperm).trans
        (List.mergeSort_perm _ _).symm
    have hWeq := List.eq_of_perm_of_sorted hpermWU hsortW hsortU
    rw [← hWeq, ← gatherList_length vx
      (sortStore (vStore α (tList vx) x.length) s2).1]
    exact (List.take_left _ _).symm
  refine ⟨(sortStore (vStore α (tList vx) x.length) s2).1, ?_,
    (sortStore (vStore α (tList vx) x.length) s2).2,
    hsorted, hcross, hperm, htake⟩
  unfold listagentPartialSort
  rw [hps]
  rfl

/-- Witness for C7 at the source doctest's views: front `x[0:10:2]` (5 slots)
and back `x[10:20:2]` over a 20-element origin are consistent, disjoint, and
the back is nonempty, so the theorem applies. -/
theorem C7_partial_sort_selects_k_smallest_witness :
    ((align ⟨some 0, some 10, some 2⟩ 20).Consistent 20 ∧
     (align ⟨some 10, none, some 2⟩ 20).Consistent 20 ∧
     (∀ kx : Nat, kx < (align ⟨some 0, some 10, some 2⟩ 20).n.toNat →
       ∀ ky : Nat, ky < (align ⟨some 10, none, some 2⟩ 20).n.toNat →
         (align ⟨some 0, some 10, some 2⟩ 20).translate (kx : Int) ≠
           (align ⟨some 10, none, some 2⟩ 20).translate (ky : Int)) ∧
     (0 < (align ⟨some 10, none, some 2⟩ 20).n.toNat ∨
       (align ⟨some 0, some 10, some 2⟩ 20).n.toNat = 0)) ∧
    (∃ x' : List Int,
      listagentPartialSort (align ⟨some 0, some 10, some 2⟩ 20)
        (align ⟨some 10, none, some 2⟩ 20)
        ([74, 97, 22, 35, 99, 27, 17, 87, 82, 100,
          97, 87, 94, 37, 16, 4, 12, 58, 4, 78] : List Int) = .ok x' ∧
      x'.length = ([74, 97, 22, 35, 99, 27, 17, 87, 82, 100,
          97, 87, 94, 37, 16, 4, 12, 58, 4, 78] : List Int).length ∧
      List.Pairwise (· ≤ ·)
        (gatherList (align ⟨some 0, some 10, some 2⟩ 20) x') ∧
      (∀ a ∈ gatherList (align ⟨some 0, some 10, some 2⟩ 20) x',
        ∀ b ∈ gatherList (align ⟨some 10, none, some 2⟩ 20) x', a ≤ b) ∧
      ((gatherList (align ⟨some 0, some 10, some 2⟩ 20) x' ++
          gatherList (align ⟨some 10, none, some 2⟩ 20) x').Perm
        (gatherList (align ⟨some 0, some 10, some 2⟩ 20)
            ([74, 97, 22, 35, 99, 27, 17, 87, 82, 100,
              97, 87, 94, 37, 16, 4, 12, 58, 4, 78] : List Int) ++
          gatherList (align ⟨some 10, none, some 2⟩ 20)
            ([74, 97, 22, 35, 99, 27, 17, 87, 82, 100,
              97, 87, 94, 37, 16, 4, 12, 58, 4, 78] : List Int))) ∧
      gatherList (align ⟨some 0, some 10, some 2⟩ 20) x' =
        ((gatherList (align ⟨some 0, some 10, some 2⟩ 20)
            ([74, 97, 22, 35, 99, 27, 17, 87, 82, 100,
              97, 87, 94, 37, 16, 4, 12, 58, 4, 78] : List Int) ++
          gatherList (align ⟨some 10, none, some 2⟩ 20)
            ([74, 97, 22, 35, 99, 27, 17, 87, 82, 100,
              97, 87, 94, 37, 16, 4, 12, 58, 4, 78] : List Int)).mergeSort
          (fun a b => decide (a ≤ b))).take
          (align ⟨some 0, some 10, some 2⟩ 20).n.toNat) :=
  ⟨⟨by decide, by decide, by decide, by decide⟩,
    C7_partial_sort_selects_k_smallest
      (align ⟨some 0, some 10, some 2⟩ 20) (align ⟨some 10, none, some 2⟩ 20)
      ([74, 97, 22, 35, 99, 27, 17, 87, 82, 100,
        97, 87, 94, 37, 16, 4, 12, 58, 4, 78] : List Int)
      (by decide) (by decide) (by decide) (by decide)⟩

theorem npScanI_spec [Inhabited α] [LinearOrder α] (a : List α) :
    ∀ i : Int, i ≤ (a.length : Int) - 2 →
      (∀ k : Nat, i < (k : Int) → k + 1 < a.length →
        a.getD (k + 1) default ≤ a.getD k default) →
      npScanI a i ≤ i ∧
      (∀ k : Nat, npScanI a i < (k : Int) → k + 1 < a.length →
        a.getD (k + 1) default ≤ a.getD k default) ∧
      (0 ≤ npScanI a i →
        a.getD (npScanI a i).toNat default <
          a.getD ((npScanI a i).toNat + 1) default) := by
  intro i
  induction i using npScanI.induct (a := a) with
  | case1 i h ih =>
    intro hi hsuf
    rw [npScanI, dif_pos h]
    have hrec := ih (by omega) ?_
    · exact ⟨le_trans hrec.1 (by omega), hrec.2.1, hrec.2.2⟩
    · intro k hk h2
      by_cases hik : i < (k : Int)
      · exact hsuf k hik h2
      · have hkk : k = i.toNat := by omega
        subst hkk
        exact h.2
  | case2 i h =>
    intro hi hsuf
    rw [npScanI, dif_neg h]
    push_neg at h
    exact ⟨le_refl i, hsuf, fun h0 => h h0⟩

theorem npScanJ_spec [Inhabited α] [LinearOrder α] (a : List α) (ai : α)
    (iN : Nat) (hstop : ai < a.getD (iN + 1) default) :
    ∀ j : Nat, iN + 1 ≤ j →
      iN + 1 ≤ npScanJ a ai j ∧ npScanJ a ai j ≤ j ∧
      ai < a.getD (npScanJ a ai j) default ∧
      (∀ k : Nat, npScanJ a ai j < k → k ≤ j → a.getD k default ≤ ai) := by
  intro j
  induction j with
  | zero => intro h; omega
  | succ j ih =>
    intro hj
    by_cases hc : a.getD (j + 1) default ≤ ai
    · have hj' : iN + 1 ≤ j := by
        by_cases he : iN + 1 = j + 1
        · rw [he] at hstop
          exact absurd hc (not_le.mpr hstop)
        · omega
      obtain ⟨h1, h2, h3, h4⟩ := ih hj'
      rw [show npScanJ a ai (j + 1) = npScanJ a ai j from by
        rw [npScanJ, if_pos hc]]
      refine ⟨h1, by omega, h3, ?_⟩
      intro k hk hkj
      rcases Nat.eq_or_lt_of_le hkj with he | hlt
      · rw [he]; exact hc
      · exact h4 k hk (by omega)
    · rw [show npScanJ a ai (j + 1) = j + 1 from by
        rw [npScanJ, if_neg hc]]
      exact ⟨hj, le_refl _, not_le.mp hc,
        fun k hk hkj => absurd hk (by omega)⟩

theorem decreasing_trans [Inhabited α] [LinearOrder α] (a : List α) (i : Int)
    (hdec : ∀ k : Nat, i < (k : Int) → k + 1 < a.length →
      a.getD (k + 1) default ≤ a.getD k default) :
    ∀ k₁ k₂ : Nat, i < (k₁ : Int) → k₁ ≤ k₂ → k₂ < a.length →
      a.getD k₂ default ≤ a.getD k₁ default := by
  intro k₁ k₂ h1 h2
  obtain ⟨d, rfl⟩ := Nat.exists_eq_add_of_le h2
  induction d with
  | zero => intro _; simp
  | succ d ihd =>
    intro h3
    have hd : k₁ + d < a.length := by omega
    have hstep := hdec (k₁ + d) (by push_cast; omega) (by omega)
    have hih := ihd (by omega) hd
    calc a.getD (k₁ + (d + 1)) default
        = a.getD ((k₁ + d) + 1) default := by rw [Nat.add_assoc]
      _ ≤ a.getD (k₁ + d) default := hstep
      _ ≤ a.getD k₁ default := hih

theorem align_tail (s L : Nat) (hs : s ≤ L) :
    align ⟨some (s : Int), none, none⟩ L
      = ⟨(s : Int), (L : Int), 1, (L : Int) - (s : Int)⟩ := by
  have hmin : min ((s : Int)) ((L : Int)) = (s : Int) := by omega
  simp only [align, sliceIndices, Option.getD_some, Option.getD_none]
  norm_num [hmin, Int.tdiv_one]

theorem align_tail_consistent (s L : Nat) (hs : s ≤ L) :
    (align ⟨some (s : Int), none, none⟩ L).Consistent L := by
  rw [align_tail s L hs]
  refine ⟨show (0 : Int) ≤ (L : Int) - (s : Int) by omega, by norm_num, ?_⟩
  intro k hk
  have hk' : k < ((L : Int) - (s : Int)).toNat := hk
  show 0 ≤ (s : Int) + (k : Int) * 1 ∧ (s : Int) + (k : Int) * 1 < (L : Int)
  constructor
  · positivity
  · simp only [mul_one]
    omega

theorem lex_of_firstdiff [Inhabited α] [LinearOrder α] :
    ∀ (m : Nat) (a b : List α), a.length = b.length → m < b.length →
      (∀ k : Nat, k < m → a.getD k default = b.getD k default) →
      a.getD m default < b.getD m default →
      List.Lex (· < ·) a b := by
  intro m
  induction m with
  | zero =>
    intro a b hlen hm hpre hlt
    cases b with
    | nil => exact absurd hm (by simp)
    | cons y bs =>
      cases a with
      | nil => simp at hlen
      | cons x as =>
        apply List.Lex.rel
        simpa using hlt
  | succ m ihm =>
    intro a b hlen hm hpre hlt
    cases b with
    | nil => exact absurd hm (by simp)
    | cons y bs =>
      cases a with
      | nil => simp at hlen
      | cons x as =>
        have hxy : x = y := by
          have := hpre 0 (by omega)
          simpa using this
        subst hxy
        apply List.Lex.cons
        exact ihm as bs (by simpa using hlen) (by simpa using hm)
          (fun k hk => by
            have := hpre (k + 1) (by omega)
            simpa using this)
          (by simpa using hlt)

theorem lex_firstdiff [Inhabited α] [LinearOrder α] :
    ∀ {a c : List α}, List.Lex (· < ·) a c → a.length = c.length →
      ∃ m : Nat, m < c.length ∧
        (∀ k : Nat, k < m → a.getD k default = c.getD k default) ∧
        a.getD m default < c.getD m default := by
  intro a c h
  induction h with
  | nil => intro hlen; simp at hlen
  | cons h ih =>
    intro hlen
    obtain ⟨m, hm, hpre, hlt⟩ := ih (by simpa using hlen)
    refine ⟨m + 1, by simpa using hm, ?_, by simpa using hlt⟩
    intro k hk
    cases k with
    | zero => simp
    | succ k =>
      have := hpre k (by omega)
      simpa using this
  | rel hr =>
    intro hlen
    exact ⟨0, by simp, fun k hk => absurd hk (by omega), by simpa using hr⟩

theorem lex_append_prefix [LinearOrder α] :
    ∀ (P : List α) {a b : List α}, List.Lex (· < ·) a b →
      List.Lex (· < ·) (P ++ a) (P ++ b) := by
  intro P
  induction P with
  | nil => intro a b h; simpa using h
  | cons x Ps ih => intro a b h; exact List.Lex.cons (ih h)

theorem sorted_lex_min [LinearOrder α] :
    ∀ (b c : List α), List.Pairwise (· ≤ ·) b → c.Perm b →
      b = c ∨ List.Lex (· < ·) b c := by
  intro b
  induction b with
  | nil =>
    intro c _ hp
    left
    exact (List.Perm.eq_nil hp).symm
  | cons x bs ih =>
    intro c hpw hp
    cases c with
    | nil =>
      have := hp.length_eq
      simp at this
    | cons y cs =>
      have hymem : y ∈ x :: bs := hp.mem_iff.mp (by simp)
      have hxy : x ≤ y := by
        rcases List.mem_cons.mp hymem with he | hm
        · exact le_of_eq he.symm
        · exact (List.pairwise_cons.mp hpw).1 y hm
      rcases lt_or_eq_of_le hxy with hlt | heq
      · right
        exact List.Lex.rel hlt
      · subst heq
        have hcs : cs.Perm bs := hp.cons_inv
        rcases ih cs (List.pairwise_cons.mp hpw).2 hcs with he | hl
        · left
          rw [he]
        · right
          exact List.Lex.cons hl

theorem take_eq_of_prefix_eq [Inhabited α] (a c : List α) (m : Nat)
    (hm : m ≤ a.length) (hm' : m ≤ c.length)
    (hpre : ∀ k : Nat, k < m → a.getD k default = c.getD k default) :
    a.take m = c.take m := by
  apply List.ext_getElem
  · rw [List.length_take, List.length_take]
    omega
  · intro k h1 h2
    rw [List.getElem_take, List.getElem_take]
    have hk : k < m := by
      rw [List.length_take] at h1
      omega
    have := hpre k hk
    rwa [List.getD_eq_getElem _ _ (by omega), List.getD_eq_getElem _ _ (by omega)]
      at this

theorem drop_perm_of_perm_take_eq (a c : List α) (m : Nat)
    (hp : a.Perm c) (ht : a.take m = c.take m) :
    (a.drop m).Perm (c.drop m) := by
  have h1 : (a.take m ++ a.drop m).Perm (c.take m ++ c.drop m) := by
    rw [List.take_append_drop, List.take_append_drop]
    exact hp
  rw [← ht] at h1
  exact (List.perm_append_left_iff _).mp h1

theorem pairwise_reverse_drop [Inhabited α] [LinearOrder α] (b : List α)
    (m : Nat)
    (hdec : ∀ k : Nat, m ≤ k → k + 1 < b.length →
      b.getD (k + 1) default ≤ b.getD k default) :
    List.Pairwise (· ≤ ·) ((b.drop m).reverse) := by
  rw [List.pairwise_reverse, List.pairwise_iff_getElem]
  intro p q hp hq hpq
  rw [List.length_drop] at hp hq
  rw [List.getElem_drop, List.getElem_drop]
  have hdt := decreasing_trans b ((m : Int) - 1)
    (fun k hk h2 => hdec k (by omega) h2) (m + p) (m + q)
    (by push_cast; omega) (by omega) (by omega)
  rw [List.getD_eq_getElem _ _ (by omega), List.getD_eq_getElem _ _ (by omega)]
    at hdt
  exact hdt

theorem sliceagentReverse_tail [Inhabited α] (s : Nat) (y : List α)
    (hs : s ≤ y.length) :
    sliceagentReverse (align ⟨some (s : Int), none, none⟩ y.length) y
      = y.take s ++ (y.drop s).reverse := by
  have hval := align_tail s y.length hs
  have hcons := align_tail_consistent s y.length hs
  have hok := transOK_tList _ y.length hcons
  obtain ⟨spec1, spec2⟩ :=
    vReverse_spec (align ⟨some (s : Int), none, none⟩ y.length) y.length hok
      ⟨y, rfl⟩
  have hy : sliceagentReverse (align ⟨some (s : Int), none, none⟩ y.length) y
      = (reverseStore (vStore α
          (tList (align ⟨some (s : Int), none, none⟩ y.length)) y.length)
          ⟨y, rfl⟩).1 := rfl
  have hblen : (sliceagentReverse
      (align ⟨some (s : Int), none, none⟩ y.length) y).length = y.length := by
    rw [hy]
    exact (reverseStore (vStore α
      (tList (align ⟨some (s : Int), none, none⟩ y.length)) y.length)
      ⟨y, rfl⟩).2
  have hnv : (align ⟨some (s : Int), none, none⟩ y.length).n.toNat
      = y.length - s := by
    rw [hval]
    show ((y.length : Int) - (s : Int)).toNat = y.length - s
    omega
  have htr : ∀ k : Nat,
      ((align ⟨some (s : Int), none, none⟩ y.length).translate (k : Int)).toNat
        = s + k := by
    intro k
    rw [hval]
    show ((s : Int) + (k : Int) * 1).toNat = s + k
    omega
  have htklen : (y.take s).length = s := by
    rw [List.length_take]
    omega
  have hdrlen : ((y.drop s).reverse).length = y.length - s := by
    rw [List.length_reverse, List.length_drop]
  apply list_ext_getD
  · rw [hblen, List.length_append, htklen, hdrlen]
    omega
  · intro p hp
    rw [hblen] at hp
    by_cases hps : p < s
    · have hlhs : (sliceagentReverse
          (align ⟨some (s : Int), none, none⟩ y.length) y).getD p default
          = y.getD p default := by
        rw [hy]
        exact spec2 p (fun k hk => by rw [htr k]; omega) default
      rw [hlhs, List.getD_append _ _ _ p (show p < (y.take s).length from by
        rw [htklen]; exact hps)]
      rw [List.getD_eq_getElem (y.take s) default
          (show p < (y.take s).length from by rw [htklen]; exact hps),
        List.getElem_take,
        List.getD_eq_getElem y default (show p < y.length from hp)]
    · have hk : p - s < (align ⟨some (s : Int), none, none⟩
          y.length).n.toNat := by rw [hnv]; omega
      have hlhs : (sliceagentReverse
          (align ⟨some (s : Int), none, none⟩ y.length) y).getD p default
          = y.getD (s + ((y.length - s) - 1 - (p - s))) default := by
        rw [hy]
        have h1 := spec1 (p - s) hk
        rw [htr (p - s), show s + (p - s) = p from by omega] at h1
        rw [h1, htr ((align ⟨some (s : Int), none, none⟩
          y.length).n.toNat - 1 - (p - s)), hnv]
      rw [hlhs, List.getD_append_right _ _ _ p (show (y.take s).length ≤ p from
        by rw [htklen]; omega)]
      rw [htklen]
      rw [List.getD_eq_getElem ((y.drop s).reverse) default
          (show p - s < ((y.drop s).reverse).length from by
            rw [hdrlen]; omega),
        List.getElem_reverse, List.getElem_drop,
        List.getD_eq_getElem y default (show s + ((y.length - s) - 1 - (p - s))
          < y.length from by omega)]
      congr 2
      rw [List.length_drop]

theorem np_true_eq [Inhabited α] [LinearOrder α] (a : List α)
    (h : ¬ npScanI a ((a.length : Int) - 2) < 0)
    (iN : Nat) (hiN : iN = (npScanI a ((a.length : Int) - 2)).toNat)
    (j : Nat) (hj : j = npScanJ a (a.getD iN default) (a.length - 1))
    (a' : List α)
    (ha' : a' = (a.set iN (a.getD j default)).set j (a.getD iN default)) :
    next_permutation a =
      (true, sliceagentReverse
        (align ⟨some ((iN : Int) + 1), none, none⟩ a'.length) a') := by
  subst ha'
  subst hj
  subst hiN
  simp only [next_permutation]
  rw [if_neg h]

theorem getD_mem_drop_perm [Inhabited α] (a c : List α) (m : Nat)
    (hm : m < c.length) (hp : (a.drop m).Perm (c.drop m)) :
    ∃ q : Nat, m + q < a.length ∧
      a.getD (m + q) default = c.getD m default := by
  have hmem : c.getD m default ∈ c.drop m := by
    rw [List.getD_eq_getElem c default hm]
    have h0 : 0 < (c.drop m).length := by
      rw [List.length_drop]
      omega
    have h1 := List.getElem_mem h0
    rw [List.getElem_drop] at h1
    simpa using h1
  have hmem2 : c.getD m default ∈ a.drop m := hp.mem_iff.mpr hmem
  obtain ⟨q, hq, he⟩ := List.mem_iff_getElem.mp hmem2
  rw [List.length_drop] at hq
  rw [List.getElem_drop] at he
  refine ⟨q, by omega, ?_⟩
  rw [List.getD_eq_getElem a default (by omega)]
  exact he

/-- C6 (confirmed): on a weakly decreasing sequence (no ascent anywhere)
`next_permutation` returns a false result and leaves the sequence unchanged,
reporting "no successor" as a normal outcome; on any sequence with an ascent
it returns a true result and transforms the sequence into its
lexicographically next permutation: the result is a permutation of the
input, lexicographically greater, and less than or equal to every
permutation of the input that is lexicographically greater than it. -/
theorem C6_next_permutation [Inhabited α] [LinearOrder α] (a : List α) :
    ((∀ k : Nat, k < a.length - 1 →
        a.getD (k + 1) default ≤ a.getD k default) →
      next_permutation a = (false, a)) ∧
    ((∃ k : Nat, k < a.length - 1 ∧
        a.getD k default < a.getD (k + 1) default) →
      (next_permutation a).1 = true ∧
      (next_permutation a).2.Perm a ∧
      List.Lex (· < ·) a (next_permutation a).2 ∧
      (∀ c : List α, c.Perm a → List.Lex (· < ·) a c →
        (next_permutation a).2 = c ∨
          List.Lex (· < ·) (next_permutation a).2 c)) := by
  constructor
  · intro hdec
    obtain ⟨hr1, hr2, hr3⟩ := npScanI_spec a ((a.length : Int) - 2) (le_refl _)
      (fun k hk h2 => absurd h2 (by omega))
    have hneg : npScanI a ((a.length : Int) - 2) < 0 := by
      by_contra h0
      push_neg at h0
      have h3 := hr3 h0
      have h4 := hdec (npScanI a ((a.length : Int) - 2)).toNat (by omega)
      exact absurd h3 (not_lt.mpr h4)
    simp only [next_permutation]
    rw [if_pos hneg]
  · intro hasc
    obtain ⟨k0, hk0, hk0asc⟩ := hasc
    have hn2 : 2 ≤ a.length := by omega
    obtain ⟨hr1, hr2, hr3⟩ := npScanI_spec a ((a.length : Int) - 2) (le_refl _)
      (fun k hk h2 => absurd h2 (by omega))
    have h0 : 0 ≤ npScanI a ((a.length : Int) - 2) := by
      by_contra hneg
      push_neg at hneg
      have h5 := hr2 k0 (by omega) (by omega)
      exact absurd hk0asc (not_lt.mpr h5)
    have hnotlt : ¬ npScanI a ((a.length : Int) - 2) < 0 := not_lt.mpr h0
    set iN := (npScanI a ((a.length : Int) - 2)).toNat with hiN
    have hcast : ((iN : Nat) : Int) = npScanI a ((a.length : Int) - 2) := by
      rw [hiN]
      exact Int.toNat_of_nonneg h0
    have hiN2 : iN + 2 ≤ a.length := by omega
    have hpiv := hr3 h0
    set ai := a.getD iN default with hai
    have hsuf : ∀ k : Nat, iN < k → k + 1 < a.length →
        a.getD (k + 1) default ≤ a.getD k default :=
      fun k hk h2 => hr2 k (by omega) h2
    set j := npScanJ a ai (a.length - 1) with hjdef
    obtain ⟨hj1, hj2, hj3, hj4⟩ :=
      npScanJ_spec a ai iN hpiv (a.length - 1) (by omega)
    rw [← hjdef] at hj1 hj2 hj3 hj4
    have hjn : j < a.length := by omega
    have hiNj : iN < j := by omega
    set w := (a.set iN (a.getD j default)).set j ai with hwdef
    have hwlen : w.length = a.length := by
      rw [hwdef, List.length_set, List.length_set]
    have hwperm : w.Perm a := by
      rw [hwdef, hai]
      exact swap_perm a iN j (by omega) hjn (by omega) default
    have hwget : ∀ p : Nat, w.getD p default =
        if p = j then ai else if p = iN then a.getD j default
        else a.getD p default := by
      intro p
      rw [hwdef]
      by_cases hpj : p = j
      · subst hpj
        rw [if_pos rfl, getD_set_self _ _ _ _ (by rw [List.length_set]; omega)]
      · rw [if_neg hpj, getD_set_ne _ _ _ _ _ (Ne.symm hpj)]
        by_cases hpi : p = iN
        · subst hpi
          rw [if_pos rfl, getD_set_self _ _ _ _ (by omega)]
        · rw [if_neg hpi, getD_set_ne _ _ _ _ _ (Ne.symm hpi)]
    have hwsuf : ∀ k : Nat, iN < k → k + 1 < a.length →
        w.getD (k + 1) default ≤ w.getD k default := by
      intro k hk h2
      rw [hwget (k + 1), hwget k]
      by_cases h1j : k + 1 = j
      · rw [if_pos h1j, if_neg (show ¬ k = j from by omega),
          if_neg (show ¬ k = iN from by omega)]
        have h8 := decreasing_trans a (iN : Int)
          (fun q hq h2q => hsuf q (by omega) h2q) k j (by omega)
          (by omega) (by omega)
        exact le_trans (le_of_lt hj3) h8
      · rw [if_neg h1j]
        by_cases h1i : k + 1 = iN
        · exact absurd h1i (by omega)
        · rw [if_neg h1i]
          by_cases hkj : k = j
          · rw [if_pos hkj]
            exact hj4 (k + 1) (by omega) (by omega)
          · rw [if_neg hkj, if_neg (show ¬ k = iN from by omega)]
            exact hsuf k hk h2
    have hnp := np_true_eq a hnotlt iN hiN j (by rw [hjdef, hai]) w
      (by rw [hwdef, hai])
    rw [hnp]
    set b := sliceagentReverse
      (align ⟨some ((iN : Int) + 1), none, none⟩ w.length) w with hbdef
    have htk : (w.take (iN + 1)).length = iN + 1 := by
      rw [List.length_take]
      omega
    have hbeq : b = w.take (iN + 1) ++ (w.drop (iN + 1)).reverse := by
      rw [hbdef,
        show ((iN : Int) + 1) = (((iN + 1 : Nat)) : Int) from by push_cast; ring]
      exact sliceagentReverse_tail (iN + 1) w (by omega)
    have hblen : b.length = a.length := by
      rw [hbeq, List.length_append, htk, List.length_reverse, List.length_drop]
      omega
    have hbp : ∀ p : Nat, p < iN + 1 → b.getD p default = w.getD p default := by
      intro p hp
      rw [hbeq, List.getD_append _ _ _ p
        (show p < (w.take (iN + 1)).length from by rw [htk]; omega)]
      rw [List.getD_eq_getElem (w.take (iN + 1)) default
          (show p < (w.take (iN + 1)).length from by rw [htk]; omega),
        List.getD_eq_getElem w default (show p < w.length from by omega),
        List.getElem_take]
    have hba : ∀ p : Nat, p < iN → b.getD p default = a.getD p default := by
      intro p hp
      rw [hbp p (by omega), hwget p, if_neg (show ¬ p = j from by omega),
        if_neg (show ¬ p = iN from by omega)]
    have hbiN : b.getD iN default = a.getD j default := by
      rw [hbp iN (by omega), hwget iN, if_neg (show ¬ iN = j from by omega),
        if_pos rfl]
    have hbperm : b.Perm a := by
      rw [hbeq]
      refine (List.Perm.append_left _ (List.reverse_perm _)).trans ?_
      rw [List.take_append_drop]
      exact hwperm
    have hsufb : List.Pairwise (· ≤ ·) ((w.drop (iN + 1)).reverse) :=
      pairwise_reverse_drop w (iN + 1)
        (fun k hk h2 => hwsuf k (by omega) (by omega))
    refine ⟨rfl, hbperm, ?_, ?_⟩
    · show List.Lex (· < ·) a b
      refine lex_of_firstdiff iN a b (by omega) (by omega) ?_ ?_
      · intro k hk
        exact (hba k hk).symm
      · rw [hbiN]
        have h9 := hj3
        rw [hai] at h9
        exact h9
    · intro c hcp hlex
      show b = c ∨ List.Lex (· < ·) b c
      have hclen : c.length = a.length := hcp.length_eq
      obtain ⟨m, hm, hpre, hlt⟩ := lex_firstdiff hlex hclen.symm
      rcases Nat.lt_trichotomy m iN with hmi | hmi | hmi
      · right
        refine lex_of_firstdiff m b c (by omega) (by omega) ?_ ?_
        · intro k hk
          rw [hba k (by omega)]
          exact hpre k hk
        · rw [hba m (by omega)]
          exact hlt
      · subst hmi
        have htakeac : a.take iN = c.take iN :=
          take_eq_of_prefix_eq a c iN (by omega) (by omega) hpre
        have hdropac : (a.drop iN).Perm (c.drop iN) :=
          drop_perm_of_perm_take_eq a c iN hcp.symm htakeac
        obtain ⟨q, hq, he⟩ := getD_mem_drop_perm a c iN (by omega) hdropac
        have hq1 : q ≠ 0 := by
          intro hq0
          subst hq0
          rw [Nat.add_zero] at he
          exact absurd he (ne_of_lt hlt)
        have hbm : b.getD iN default ≤ c.getD iN default := by
          rw [hbiN, ← he]
          by_cases hqj : iN + q ≤ j
          · exact decreasing_trans a (iN : Int)
              (fun k hk h2 => hsuf k (by omega) h2) (iN + q) j
              (by push_cast; omega) hqj (by omega)
          · exfalso
            have h7 := hj4 (iN + q) (by omega) (by omega)
            rw [he] at h7
            rw [hai] at h7
            exact absurd hlt (not_lt.mpr h7)
        rcases lt_or_eq_of_le hbm with hblt | hbe
        · right
          refine lex_of_firstdiff iN b c (by omega) (by omega) ?_ ?_
          · intro k hk
            rw [hba k hk]
            exact hpre k hk
          · exact hblt
        · have htakebc : b.take (iN + 1) = c.take (iN + 1) := by
            apply take_eq_of_prefix_eq b c (iN + 1) (by omega) (by omega)
            intro k hk
            rcases Nat.lt_or_ge k iN with hki | hki
            · rw [hba k hki]
              exact hpre k hki
            · have hkeq : k = iN := by omega
              subst hkeq
              exact hbe
          have hdropbc : (b.drop (iN + 1)).Perm (c.drop (iN + 1)) :=
            drop_perm_of_perm_take_eq b c (iN + 1) (hbperm.trans hcp.symm)
              htakebc
          have hbdrop : b.drop (iN + 1) = (w.drop (iN + 1)).reverse := by
            rw [hbeq]
            have h5 := List.drop_left (w.take (iN + 1))
              ((w.drop (iN + 1)).reverse)
            rw [htk] at h5
            exact h5
          have hsmin := sorted_lex_min (b.drop (iN + 1)) (c.drop (iN + 1))
            (by rw [hbdrop]; exact hsufb) hdropbc.symm
          rcases hsmin with hde | hdl
          · left
            have hb5 := List.take_append_drop (iN + 1) b
            have hc5 := List.take_append_drop (iN + 1) c
            rw [← hb5, ← hc5, htakebc, hde]
          · right
            have h6 := lex_append_prefix (b.take (iN + 1)) hdl
            rw [List.take_append_drop] at h6
            rw [htakebc] at h6
            rw [List.take_append_drop] at h6
            exact h6
      · exfalso
        have htakeac : a.take m = c.take m :=
          take_eq_of_prefix_eq a c m (by omega) (by omega) hpre
        have hdropac : (a.drop m).Perm (c.drop m) :=
          drop_perm_of_perm_take_eq a c m hcp.symm htakeac
        obtain ⟨q, hq, he⟩ := getD_mem_drop_perm a c m (by omega) hdropac
        have h7 : a.getD (m + q) default ≤ a.getD m default :=
          decreasing_trans a (iN : Int)
            (fun k hk h2 => hsuf k (by omega) h2) m (m + q)
            (by omega) (by omega) hq
        rw [he] at h7
        exact absurd hlt (not_lt.mpr h7)

/-- Witness for C6 at the source doctests: `[5,4,2,0]` is weakly decreasing,
so the false branch applies; `[4,5,3,2,1]` has an ascent, so the true branch
applies. -/
theorem C6_next_permutation_witness :
    ((∀ k : Nat, k < ([5, 4, 2, 0] : List Int).length - 1 →
        ([5, 4, 2, 0] : List Int).getD (k + 1) default ≤
          ([5, 4, 2, 0] : List Int).getD k default) ∧
      next_permutation ([5, 4, 2, 0] : List Int) = (false, [5, 4, 2, 0])) ∧
    ((∃ k : Nat, k < ([4, 5, 3, 2, 1] : List Int).length - 1 ∧
        ([4, 5, 3, 2, 1] : List Int).getD k default <
          ([4, 5, 3, 2, 1] : List Int).getD (k + 1) default) ∧
      ((next_permutation ([4, 5, 3, 2, 1] : List Int)).1 = true ∧
        (next_permutation ([4, 5, 3, 2, 1] : List Int)).2.Perm
          [4, 5, 3, 2, 1] ∧
        List.Lex (· < ·) ([4, 5, 3, 2, 1] : List Int)
          (next_permutation ([4, 5, 3, 2, 1] : List Int)).2 ∧
        (∀ c : List Int, c.Perm [4, 5, 3, 2, 1] →
          List.Lex (· < ·) ([4, 5, 3, 2, 1] : List Int) c →
          (next_permutation ([4, 5, 3, 2, 1] : List Int)).2 = c ∨
            List.Lex (· < ·)
              (next_permutation ([4, 5, 3, 2, 1] : List Int)).2 c))) :=
  ⟨⟨by decide, (C6_next_permutation ([5, 4, 2, 0] : List Int)).1 (by decide)⟩,
   ⟨by decide,
    (C6_next_permutation ([4, 5, 3, 2, 1] : List Int)).2 (by decide)⟩⟩
